import Mathlib

/-!
# A verification development for the geotext core

This file gives a shallow embedding, in Lean, of the core of the `geotext`
library (file `geotext/geotext.py`): the name normalizer, the meta-index
construction of `build_index`, the table loader `read_table`, the two
extraction modes `GeoText.parse` / `GeoText.parse_aggressive`, the
country-code filter and the mention-tabulation loop of `GeoText.__init__`.

Conventions of the embedding:
* Python strings are Lean `String`s; character-level operations are carried
  out on `String.data : List Char` so that everything is executable by
  kernel reduction.
* Python dictionaries are modelled as insertion-ordered association lists
  `List (String × V)`; `d[k] = v` is `setK` (replace in place, else append,
  matching CPython's key-order semantics) and `defaultdict` reads are
  `getD d k default`.
* Python sets whose only observable use is membership are modelled as lists
  queried with `contains`.
* Fallible operations (`d[k]` raising `KeyError`, `row[i]` raising
  `IndexError`, `int(...)` raising `ValueError`) live in `Except String`.
* `str.lower()` is modelled character-wise by `Char.toLower` and
  `str.islower` by `Char.isLower`; both model the ASCII fragment of the
  Python originals, which is faithful on every string handled by the
  claims below.
-/

namespace Geotext

/-- The four match categories (`MATCH_TYPES` in the source). -/
inductive MatchType where
  | countries
  | admin_divisions
  | cities
  | nationalities
deriving DecidableEq, Repr

/-- `PlaceData = namedtuple('PlaceData', ['country', 'population'])`. -/
structure PlaceData where
  country : String
  population : Nat
deriving DecidableEq, Repr

/-- A category map of `build_index`: normalized lowercase name ↦ PlaceData. -/
abbrev CatMap := List (String × PlaceData)

/-! ## The Normalizer (`normalize`) -/

/-- The characters `| \ / , -` replaced by a space in `normalize`
(the regex `[|\\/,\-]`). -/
def sepChars : List Char := ['|', Char.ofNat 92, '/', ',', '-']

def isSep (c : Char) : Bool := sepChars.contains c

/-- Python's `string.punctuation`: the 32 ASCII punctuation characters. -/
def punctChars : List Char :=
  ['!', Char.ofNat 34, '#', '$', '%', '&', Char.ofNat 39, '(', ')', '*', '+',
   ',', '-', '.', '/', ':', ';', '<', '=', '>', '?', '@', '[', Char.ofNat 92,
   ']', '^', '_', Char.ofNat 96, Char.ofNat 123, '|', Char.ofNat 125, '~']

def isPunct (c : Char) : Bool := punctChars.contains c

/-- Python's `t.strip(chars)`: drop the maximal run of characters satisfying
`p` from both ends. -/
def stripEnds (p : Char → Bool) (t : List Char) : List Char :=
  ((t.dropWhile p).reverse.dropWhile p).reverse

/-- Python's `' '.join`, at the character level. -/
def joinSp : List (List Char) → List Char
  | [] => []
  | [t] => t
  | t :: ts => t ++ ' ' :: joinSp ts

/-- The token list produced by `normalize` before the final join:
remove `.`, replace `| \ / , -` by spaces, split on whitespace
(`str.split()` ≡ split at every whitespace character and drop the empty
pieces — the empty pieces are dropped by the final filter together with
the tokens emptied by stripping), and strip `string.punctuation` from both
ends of every token. -/
def normTokens (cs : List Char) : List (List Char) :=
  ((((cs.filter (fun c => !(c == '.'))).map
      (fun c => if isSep c then ' ' else c)).splitOnP
        (fun c => c.isWhitespace)).map (stripEnds isPunct)).filter
    (fun t => !t.isEmpty)

/-- `normalize` from the source, at the character level: the tokens of
`normTokens`, rejoined with single spaces. -/
def normalizeChars (cs : List Char) : List Char :=
  joinSp (normTokens cs)

/-- `normalize(s)` from the source. -/
def normalize (s : String) : String := String.mk (normalizeChars s.data)

/-- `s.lower()` (ASCII model). -/
def pyLower (s : String) : String := String.mk (s.data.map Char.toLower)

/-- `s.strip()` (whitespace strip). -/
def pyStrip (s : String) : String := String.mk (stripEnds Char.isWhitespace s.data)

/-- `s.split()`: split on whitespace, dropping empty pieces. -/
def pySplit (s : String) : List String :=
  ((s.data.splitOnP (fun c => c.isWhitespace)).filter (fun t => !t.isEmpty)).map String.mk

/-- `' '.join(ws)` on strings. -/
def joinWords (ws : List String) : String := String.mk (joinSp (ws.map String.data))

/-! ## Association-list maps (Python `dict` / `defaultdict`) -/

/-- `d[k] = v`: replace in place if the key exists, else append
(CPython dictionaries keep the first-insertion position of a key). -/
def setK {V : Type} : List (String × V) → String → V → List (String × V)
  | [], k, v => [(k, v)]
  | (k0, v0) :: rest, k, v =>
      if k0 = k then (k, v) :: rest else (k0, v0) :: setK rest k v

/-- `defaultdict` read: `d[k]` where a missing key yields `dflt`. -/
def getD {V : Type} (d : List (String × V)) (k : String) (dflt : V) : V :=
  (d.lookup k).getD dflt

/-! ## The blacklist and the meta index of `build_index` -/

/-- `BLACKLIST` from the source. -/
def BLACKLIST : List String :=
  ["asia", "bar", "bay", "can", "central", "eastern", "north", "northern",
   "of", "pole", "southern", "university", "western"]

/-- `set.add` on a tag set (modelled as a duplicate-free list). -/
def addTag (tags : List MatchType) (t : MatchType) : List MatchType :=
  if tags.contains t then tags else tags ++ [t]

/-- One pass of the meta-construction loop of `build_index`:
`for name in index: if name not in BLACKLIST: meta[name].add(match_type)`. -/
def metaPass (m : List (String × List MatchType)) (t : MatchType)
    (names : List String) : List (String × List MatchType) :=
  names.foldl
    (fun m name =>
      if BLACKLIST.contains name then m
      else setK m name (addTag (getD m name []) t)) m

/-- The meta index of `build_index`: the four category passes, in the order
written in the source (`cities`, `admin_divisions`, `nationalities`,
`countries`), where each category is given by its list of keys. -/
def buildMeta (cities admin_divisions nationalities countries : List String) :
    List (String × List MatchType) :=
  metaPass
    (metaPass
      (metaPass
        (metaPass [] MatchType.cities cities)
        MatchType.admin_divisions admin_divisions)
      MatchType.nationalities nationalities)
    MatchType.countries countries

/-- The tag set recorded for `name` (empty when `name` is not a key).
This also models the query `index.meta.get(candidate)` of the extractors:
Python's `dict.get` returns `None` for a missing key, and both `None` and
an empty set fail the `if not match_types` test, so returning `[]` for a
missing key is observationally identical. -/
def metaTags (m : List (String × List MatchType)) (name : String) :
    List MatchType :=
  (m.lookup name).getD []

/-! ## The index (`Index = namedtuple(...)`) -/

/-- The five-field index produced by `build_index`.  The gazetteer data
files are an external data source that is not part of the repository, so
the index contents are a parameter of every query-time function. -/
structure Index where
  nationalities : CatMap
  cities : CatMap
  countries : CatMap
  admin_divisions : CatMap
  meta : List (String × List MatchType)

/-- `getattr(self.index, match_type)`. -/
def Index.cat (idx : Index) : MatchType → CatMap
  | MatchType.countries => idx.countries
  | MatchType.admin_divisions => idx.admin_divisions
  | MatchType.cities => idx.cities
  | MatchType.nationalities => idx.nationalities

/-! ## Matched-string buckets -/

/-- The dictionary `matches = {match_type: [] for match_type in MATCH_TYPES}`. -/
structure Buckets where
  countries : List String
  admin_divisions : List String
  cities : List String
  nationalities : List String
deriving DecidableEq, Repr

def Buckets.empty : Buckets := ⟨[], [], [], []⟩

def Buckets.get (b : Buckets) : MatchType → List String
  | MatchType.countries => b.countries
  | MatchType.admin_divisions => b.admin_divisions
  | MatchType.cities => b.cities
  | MatchType.nationalities => b.nationalities

/-- `matches[match_type].append(candidate)`. -/
def Buckets.app (b : Buckets) (t : MatchType) (s : String) : Buckets :=
  match t with
  | MatchType.countries => { b with countries := b.countries ++ [s] }
  | MatchType.admin_divisions =>
      { b with admin_divisions := b.admin_divisions ++ [s] }
  | MatchType.cities => { b with cities := b.cities ++ [s] }
  | MatchType.nationalities =>
      { b with nationalities := b.nationalities ++ [s] }

/-- Shared bucket assembly of both extractors: every accepted candidate is
appended to the bucket of each of its category tags, in scan order
(`for match_type in match_types: matches[match_type].append(candidate)`);
a candidate whose tag list is empty is skipped, which is exactly the
effect of `if not match_types: continue`. -/
def accumulate (cands : List (String × List MatchType)) : Buckets :=
  cands.foldl (fun bks p => p.2.foldl (fun b t => b.app t p.1) bks)
    Buckets.empty

/-! ## The aggressive extractor (`GeoText.parse_aggressive`) -/

/-- `range(hi, lo, -1)`: `hi, hi-1, …, lo+1`. -/
def downRange : Nat → Nat → List Nat
  | 0, _ => []
  | hi + 1, lo => if hi + 1 ≤ lo then [] else (hi + 1) :: downRange hi lo

/-- `lo ≤ c.toNat ≤ hi`, for literal regex character classes. -/
def between (lo hi : Nat) (c : Char) : Bool :=
  lo ≤ c.toNat && c.toNat ≤ hi

/-- One accepted match of the aggressive scan: the starting token index,
window length in tokens, the candidate string and its meta-index tags. -/
structure AggMatch where
  start : Nat
  len : Nat
  cand : String
  types : List MatchType
deriving DecidableEq, Repr

/-- The inner loop of `parse_aggressive` at token index `i`:
`for length in range(min(4, len(tokens) - i), prev_match_len, -1)` with the
two `continue` guards (candidates shorter than 3 characters containing a
lowercase letter are skipped; candidates absent from the meta index are
skipped) and the `break` on the first hit. -/
def tryLengths (meta : List (String × List MatchType)) (tokens : List String)
    (i : Nat) : List Nat → Option (Nat × String × List MatchType)
  | [] => none
  | length :: rest =>
      let candidate := joinWords ((tokens.drop i).take length)
      if candidate.length < 3 && candidate.data.any Char.isLower then
        tryLengths meta tokens i rest
      else
        let ts := metaTags meta (pyLower candidate)
        if ts.isEmpty then tryLengths meta tokens i rest
        else some (length, candidate, ts)

/-- The outer loop of `parse_aggressive`: `for i in range(len(tokens))`,
carrying `prev_match_len`.  `k` counts the remaining iterations (the loop
is entered with `k = n = len(tokens)` and `i = 0`), and
`prev_match_len = max(prev_match_len - 1, 0)` is Nat subtraction. -/
def aggGo (meta : List (String × List MatchType)) (tokens : List String)
    (n : Nat) : Nat → Nat → Nat → List AggMatch
  | 0, _, _ => []
  | k + 1, i, prev0 =>
      let prev := prev0 - 1
      match tryLengths meta tokens i (downRange (min 4 (n - i)) prev) with
      | none => aggGo meta tokens n k (i + 1) prev
      | some (length, cand, ts) =>
          ⟨i, length, cand, ts⟩ :: aggGo meta tokens n k (i + 1) length

/-- The full aggressive scan over a token list, returning the accepted
matches in scan order. -/
def aggressiveScan (meta : List (String × List MatchType))
    (tokens : List String) : List AggMatch :=
  aggGo meta tokens tokens.length tokens.length 0 0

/-- `GeoText.parse_aggressive`: tokenize `normalize(text)` with
`str.split()`, scan, and assemble the buckets from the accepted matches in
scan order. -/
def parse_aggressive (meta : List (String × List MatchType)) (text : String) :
    Buckets :=
  accumulate
    ((aggressiveScan meta (pySplit (normalize text))).map
      (fun m => (m.cand, m.types)))

/-! ## The strict extractor (`GeoText.parse`)

The candidate generator is
`re.findall(r"[A-ZÀ-Ú]+[a-zà-ú]+[ \-]?(?:d[a-u].)?(?:[A-ZÀ-Ú]+[a-zà-ú]+)*", text)`.
Because the two character classes are disjoint and nothing follows the
final star, the backtracking-preferred (greedy) match of this regex is
computed exactly by maximal-munch, which is what `matchA`/`matchB`/
`matchC`/`matchD` implement; `findall` scans left to right and resumes
after each match, as `re.findall` does. -/

/-- `[A-ZÀ-Ú]` (codepoints 65–90 and 192–218, as in the regex). -/
def isCapL (c : Char) : Bool := between 65 90 c || between 192 218 c

/-- `[a-zà-ú]` (codepoints 97–122 and 224–250). -/
def isLowL (c : Char) : Bool := between 97 122 c || between 224 250 c

/-- One capitalized word group `[A-ZÀ-Ú]+[a-zà-ú]+`. -/
def matchA (cs : List Char) : Option (List Char × List Char) :=
  let caps := cs.takeWhile isCapL
  let rest1 := cs.dropWhile isCapL
  if caps.isEmpty then none
  else
    let lows := rest1.takeWhile isLowL
    let rest2 := rest1.dropWhile isLowL
    if lows.isEmpty then none else some (caps ++ lows, rest2)

/-- The optional separator `[ \-]?`. -/
def matchB : List Char → List Char × List Char
  | [] => ([], [])
  | c :: rest => if c == ' ' || c == '-' then ([c], rest) else ([], c :: rest)

/-- The optional linking article `(?:d[a-u].)?` (`.` matches any character
except a newline). -/
def matchC : List Char → List Char × List Char
  | c1 :: c2 :: c3 :: rest =>
      if c1 == 'd' && between 97 117 c2 && !(c3 == Char.ofNat 10) then
        ([c1, c2, c3], rest)
      else ([], c1 :: c2 :: c3 :: rest)
  | cs => ([], cs)

/-- The trailing star `(?:[A-ZÀ-Ú]+[a-zà-ú]+)*` (fuelled; each repetition
consumes at least two characters, so `fuel = length` suffices). -/
def matchD : Nat → List Char → List Char × List Char
  | 0, cs => ([], cs)
  | fuel + 1, cs =>
      match matchA cs with
      | none => ([], cs)
      | some (m, rest) =>
          let p := matchD fuel rest
          (m ++ p.1, p.2)

/-- The greedy match of the city regex at the head of `cs`, returning the
matched characters and the remainder. -/
def matchRegex (cs : List Char) : Option (List Char × List Char) :=
  match matchA cs with
  | none => none
  | some (a, r1) =>
      let b := matchB r1
      let c := matchC b.2
      let d := matchD c.2.length c.2
      some (a ++ (b.1 ++ (c.1 ++ d.1)), d.2)

/-- `re.findall` for the city regex: try to match at every position, on a
hit record `(position, match)` and resume after the match, otherwise
advance one character (fuelled; every step consumes at least one
character). -/
def findallGo : Nat → Nat → List Char → List (Nat × List Char)
  | 0, _, _ => []
  | _ + 1, _, [] => []
  | fuel + 1, pos, c :: rest =>
      match matchRegex (c :: rest) with
      | some (m, r) => (pos, m) :: findallGo fuel (pos + m.length) r
      | none => findallGo fuel (pos + 1) rest

def findall (cs : List Char) : List (Nat × List Char) :=
  findallGo cs.length 0 cs

/-- The candidates of `GeoText.parse`, with their match positions:
`for candidate in re.findall(city_regex, text): candidate = candidate.strip()`. -/
def strictCands (text : String) : List (Nat × String) :=
  (findall text.data).map (fun pm => (pm.1, pyStrip (String.mk pm.2)))

/-- `GeoText.parse`: validate every stripped candidate against the meta
index under `normalize(candidate).lower()`, append the original candidate
to each tagged bucket, and finally clear the nationalities bucket
(`matches[NATIONALITIES] = []`). -/
def parse (meta : List (String × List MatchType)) (text : String) : Buckets :=
  let bks := accumulate ((strictCands text).map
      (fun pc => (pc.2, metaTags meta (pyLower (normalize pc.2)))))
  { bks with nationalities := [] }

/-! ## The mention tabulator and `GeoText.__init__` -/

/-- The state of the tabulation loop: `max_population`, `mentions`
(both insertion-ordered `defaultdict(int)`s) and the `seen` set of
`(country, match_string)` pairs, modelled as a list queried with
`contains`. -/
structure TabState where
  maxPop : List (String × Nat)
  mentions : List (String × Nat)
  seen : List (String × String)
deriving DecidableEq, Repr

/-- `KeyError`-raising dictionary access `d[k]`. -/
def getE (d : CatMap) (k : String) : Except String PlaceData :=
  match d.lookup k with
  | some v => Except.ok v
  | none => Except.error ("KeyError: " ++ k)

/-- The body of the inner tabulation loop for one `match_string`:
`country, population = index[match_string.lower()]`, update the running
per-country maximum population, and count the mention unless
`(country, match_string)` is in `seen`.  `seen` stays fixed for the whole
bucket; newly counted pairs are collected in `new_matches` (the second
component of the accumulator). -/
def processString (cat : CatMap) (acc : TabState × List (String × String))
    (s : String) : Except String (TabState × List (String × String)) := do
  let pd ← getE cat (pyLower s)
  let st := acc.1
  let maxPop1 :=
    setK st.maxPop pd.country (max (getD st.maxPop pd.country 0) pd.population)
  if (pd.country, s) ∈ st.seen then
    pure (⟨maxPop1, st.mentions, st.seen⟩, acc.2)
  else
    pure
      (⟨maxPop1,
        setK st.mentions pd.country (getD st.mentions pd.country 0 + 1),
        st.seen⟩,
       acc.2 ++ [(pd.country, s)])

/-- One category pass of the tabulation loop, followed by
`seen.update(new_matches)`: the seen set grows only after the whole
bucket has been processed. -/
def processType (cat : CatMap) (st : TabState) (bucket : List String) :
    Except String TabState := do
  let r ← bucket.foldlM (processString cat) (st, [])
  pure ⟨r.1.maxPop, r.1.mentions, r.1.seen ++ r.2⟩

/-- The tabulation loop `for match_type in MATCH_TYPES`.  `MATCH_TYPES` is
a Python `set`, whose iteration order is unspecified, so the order in
which the four categories are visited is a parameter. -/
def tabulate (idx : Index) (parsed : Buckets) (order : List MatchType) :
    Except String TabState :=
  order.foldlM (fun st t => processType (idx.cat t) st (parsed.get t))
    ⟨[], [], []⟩

/-- One concrete iteration order of the set `MATCH_TYPES`, used for
concrete evaluations. -/
def canonicalOrder : List MatchType :=
  [MatchType.countries, MatchType.admin_divisions, MatchType.cities,
   MatchType.nationalities]

/-- Python tuple comparison `key a > key b` on `(count, max_population)`
pairs. -/
def keyGt (a b : Nat × Nat) : Bool :=
  b.1 < a.1 || (a.1 == b.1 && b.2 < a.2)

/-- Stable descending insertion: `x` is placed before the first element
whose key is not strictly greater than `x`'s.  Folded over the list this
reproduces the unique stable descending ordering, i.e. the output of
Python's stable `sorted(..., reverse=True)`. -/
def insertDesc {α : Type} (key : α → Nat × Nat) (x : α) : List α → List α
  | [] => [x]
  | y :: ys =>
      if keyGt (key y) (key x) then y :: insertDesc key x ys else x :: y :: ys

def sortDesc {α : Type} (key : α → Nat × Nat) (l : List α) : List α :=
  l.foldr (insertDesc key) []

/-- The attributes of a constructed `GeoText` object.  `max_population`
is the final per-country maximum-population map of the tabulation loop,
exposed here because the ordering contract of `country_mentions` is
specified in terms of it. -/
structure GeoTextResult where
  countries : List String
  admin_divisions : List String
  cities : List String
  nationalities : List String
  country_mentions : List (String × Nat)
  max_population : List (String × Nat)
deriving DecidableEq, Repr

/-- Python `==` between a `PlaceData` namedtuple and a string: values of
different types never compare equal in Python, so this is constantly
`false`.  The source's filter lines for admin divisions and nationalities
compare `self.index...[...]` (a `PlaceData`) with `country` (a string). -/
def placeEqString (_ : PlaceData) (_ : String) : Bool := false

/-- A list comprehension with a predicate that may raise `KeyError`. -/
def filterE (f : String → Except String Bool) :
    List String → Except String (List String)
  | [] => pure []
  | s :: rest => do
      let b ← f s
      let r ← filterE f rest
      pure (if b then s :: r else r)

/-- `GeoText.__init__(text, country, aggressive)`.  Lines transcribed:
the parse call, the three filter comprehensions guarded by
`if country is not None` (the admin-division comprehension looks the
division up in `self.index.cities`, and the admin-division and
nationality comprehensions compare a `PlaceData` against the country
string, exactly as the source does), the tabulation loop over `parsed`
(not over the filtered lists), and the final stable descending sort by
`(count, max_population[country])`. -/
def geoTextInit (idx : Index) (text : String) (country : Option String)
    (aggressive : Bool) (order : List MatchType) :
    Except String GeoTextResult := do
  let parsed :=
    if aggressive then parse_aggressive idx.meta text else parse idx.meta text
  let filtered ←
    match country with
    | none => pure (parsed.cities, parsed.admin_divisions, parsed.nationalities)
    | some c => do
        let cities1 ← filterE (fun city => do
          let pd ← getE idx.cities (pyLower city)
          pure (pd.country == c)) parsed.cities
        let admin1 ← filterE (fun division => do
          let pd ← getE idx.cities (pyLower division)
          pure (placeEqString pd c)) parsed.admin_divisions
        let nats1 ← filterE (fun nationality => do
          let pd ← getE idx.nationalities (pyLower nationality)
          pure (placeEqString pd c)) parsed.nationalities
        pure (cities1, admin1, nats1)
  let st ← tabulate idx parsed order
  let cm := sortDesc (fun p => (p.2, getD st.maxPop p.1 0)) st.mentions
  pure ⟨parsed.countries, filtered.2.1, filtered.1, filtered.2.2, cm, st.maxPop⟩

/-! ## Specification functions for the tabulator -/

/-- `match_string` is attributed to country `c` by category map `cat`. -/
def mapsToB (cat : CatMap) (s : String) (c : String) : Bool :=
  match cat.lookup (pyLower s) with
  | some pd => pd.country == c
  | none => false

/-- The batch-deduplicated mention count for country `c`: per category
pass, every occurrence of a not-yet-seen string attributed to `c` counts,
and the per-country seen set grows only after the whole bucket. -/
def mentionsSpec (idx : Index) (parsed : Buckets) (c : String) :
    List MatchType → List String → Nat
  | [], _ => 0
  | t :: rest, seenC =>
      ((parsed.get t).filter
        (fun s => mapsToB (idx.cat t) s c && !(seenC.contains s))).length
      + mentionsSpec idx parsed c rest
          (seenC ++ (parsed.get t).filter (fun s => mapsToB (idx.cat t) s c))

/-- The largest population among the occurrences in bucket `b` that `cat`
attributes to country `c`. -/
def popsOf (cat : CatMap) (b : List String) (c : String) : Nat :=
  match b with
  | [] => 0
  | s :: rest =>
      max
        (match cat.lookup (pyLower s) with
        | some pd => if pd.country == c then pd.population else 0
        | none => 0)
        (popsOf cat rest c)

/-- The maximum observed population for `c` across all processed category
buckets. -/
def maxPopSpec (idx : Index) (parsed : Buckets) (order : List MatchType)
    (c : String) : Nat :=
  match order with
  | [] => 0
  | t :: rest => max (popsOf (idx.cat t) (parsed.get t) c)
      (maxPopSpec idx parsed rest c)

/-- The parse dispatch of `GeoText.__init__`. -/
def parseFor (idx : Index) (aggressive : Bool) (text : String) : Buckets :=
  if aggressive then parse_aggressive idx.meta text else parse idx.meta text

/-- Strict containment of the token span of `m1` inside the token span of
`m2`. -/
def spanWithin (m1 m2 : AggMatch) : Prop :=
  m2.start ≤ m1.start ∧ m1.start + m1.len ≤ m2.start + m2.len ∧
    (m2.start < m1.start ∨ m1.start + m1.len < m2.start + m2.len)

/-- Bucket consistency across categories: a string occurring in two
buckets occurs in both the same number of times.  Both extractors produce
only consistent bucket families, because every accepted candidate
occurrence is appended to all of its category buckets at once. -/
def Consistent (parsed : Buckets) : Prop :=
  ∀ s t1 t2, s ∈ parsed.get t1 → s ∈ parsed.get t2 →
    (parsed.get t1).count s = (parsed.get t2).count s

/-- The meta index stores Python *sets* of tags (`defaultdict(set)`), so
each tag list is duplicate-free.  Stated as a hypothesis because the
embedding represents those sets as lists. -/
def MetaNodup (meta : List (String × List MatchType)) : Prop :=
  ∀ name, (metaTags meta name).Nodup

/-! ## The table loader (`read_table`) and the alias/country loads -/

/-- `row[i]` with `IndexError`. -/
def rowGet (row : List String) (i : Nat) : Except String String :=
  match row.get? i with
  | some v => Except.ok v
  | none => Except.error "IndexError: list index out of range"

/-- `int(s)` for the nonnegative decimal population fields, with
`ValueError` on anything else. -/
def natOfDigitsAux (acc : Nat) : List Char → Option Nat
  | [] => some acc
  | c :: rest =>
      if between 48 57 c then natOfDigitsAux (acc * 10 + (c.toNat - 48)) rest
      else none

def pyInt (s : String) : Except String Nat :=
  match s.data with
  | [] => Except.error ("ValueError: " ++ s)
  | cs =>
      match natOfDigitsAux 0 cs with
      | some n => Except.ok n
      | none => Except.error ("ValueError: " ++ s)

/-- `line.rstrip('\n')`. -/
def rstripNl (cs : List Char) : List Char :=
  (cs.reverse.dropWhile (fun c => c == Char.ofNat 10)).reverse

/-- The effective data lines of `read_table`: skip the first `skip` lines,
then drop blank lines and lines starting with the comment character
(`line for line in f if line.strip() and not line.startswith(comment)`). -/
def effectiveLines (lines : List String) (skip : Nat) (commentC : Char) :
    List String :=
  (lines.drop skip).filter
    (fun l => !(stripEnds Char.isWhitespace l.data).isEmpty &&
      !(l.data.head? == some commentC))

/-- `line.rstrip('\n').split(sep)` for the single-character separators the
source uses (`\t` and `:`); Python's `split(sep)` keeps empty pieces. -/
def columnsOf (sep : Char) (l : String) : List String :=
  ((rstripNl l.data).splitOnP (fun c => c == sep)).map String.mk

/-- The per-line body of `read_table` with `collect_set=False`: compute
the value, then the keys, and write `d[normalize(key.lower())] = value`
with last-write-wins dictionary semantics.  A row access out of range or
an unparsable population surfaces as an error. -/
def readLine {V : Type} (sep : Char)
    (parse_keys : List String → Except String (List String))
    (parse_value : List String → Except String V)
    (d : List (String × V)) (l : String) :
    Except String (List (String × V)) := do
  let columns := columnsOf sep l
  let value ← parse_value columns
  let keys ← parse_keys columns
  pure (keys.foldl (fun d k => setK d (normalize (pyLower k)) value) d)

/-- `read_table` with `collect_set=False`. -/
def read_table {V : Type} (lines : List String) (skip : Nat)
    (commentC sep : Char)
    (parse_keys : List String → Except String (List String))
    (parse_value : List String → Except String V) :
    Except String (List (String × V)) :=
  (effectiveLines lines skip commentC).foldlM
    (readLine sep parse_keys parse_value) []

/-- `set.add` for alias sets. -/
def addSet (l : List String) (v : String) : List String :=
  if l.contains v then l else l ++ [v]

/-- `read_table` with `collect_set=True`: the dictionary is a
`defaultdict(set)` and each value is added to the key's set. -/
def read_table_set (lines : List String) (skip : Nat) (commentC sep : Char)
    (parse_keys : List String → Except String (List String))
    (parse_value : List String → Except String String) :
    Except String (List (String × List String)) :=
  (effectiveLines lines skip commentC).foldlM
    (fun d l => do
      let columns := columnsOf sep l
      let value ← parse_value columns
      let keys ← parse_keys columns
      pure (keys.foldl (fun d k =>
        setK d (normalize (pyLower k))
          (addSet (getD d (normalize (pyLower k)) []) value)) d))
    []

/-- The primary alias load of `build_index`: keys `{row[1]}`, values
`row[3]`, collected as sets. -/
def loadAliases (lines : List String) :
    Except String (List (String × List String)) :=
  read_table_set lines 0 '#' '\t'
    (fun row => do
      let k ← rowGet row 1
      pure [k])
    (fun row => rowGet row 3)

/-- The custom alias load of `build_index`: keys `{row[0]}`, values
`row[1]`, collected as sets. -/
def loadCustomAliases (lines : List String) :
    Except String (List (String × List String)) :=
  read_table_set lines 0 '#' '\t'
    (fun row => do
      let k ← rowGet row 0
      pure [k])
    (fun row => rowGet row 1)

/-- `set |= set`. -/
def setUnion (a b : List String) : List String := b.foldl addSet a

/-- The custom-alias merge of `build_index`:
`for geoname_id, alias_set in custom_aliases.items():
aliases[geoname_id] |= alias_set`.  The primary table is a
`defaultdict(set)`, so a custom id absent from it silently receives a
fresh empty set before the union — no error is raised. -/
def mergeCustom (aliases custom : List (String × List String)) :
    List (String × List String) :=
  custom.foldl (fun d p => setK d p.1 (setUnion (getD d p.1 []) p.2)) aliases

/-- The alias phase of `build_index`: load both alias tables, then merge
the custom aliases into the primary map. -/
def buildAliases (primary custom : List String) :
    Except String (List (String × List String)) := do
  let a ← loadAliases primary
  let c ← loadCustomAliases custom
  pure (mergeCustom a c)

/-- `with_aliases(name_set, alias_key)` from `build_index`. -/
def with_aliases (aliases : List (String × List String))
    (name_set : List String) (alias_key : String) : List String :=
  match aliases.lookup alias_key with
  | some s => setUnion name_set s
  | none => name_set

/-- The key extractor of the countries table:
`parse_keys = λ row: with_aliases({row[4]}, row[16])`. -/
def countryKeys (aliases : List (String × List String))
    (row : List String) : Except String (List String) := do
  let k ← rowGet row 4
  let a ← rowGet row 16
  pure (with_aliases aliases [k] a)

/-- The value extractor of the countries table:
`get_place_value(country_index=0, pop_index=7)`. -/
def countryValue (row : List String) : Except String PlaceData := do
  let c ← rowGet row 0
  let p ← rowGet row 7
  let n ← pyInt p
  pure ⟨c, n⟩

/-- The countries load of `build_index`:
`read_table('countryInfo.txt', skip=1, ...)`. -/
def loadCountries (aliases : List (String × List String))
    (lines : List String) : Except String (List (String × PlaceData)) :=
  read_table lines 1 '#' '\t' (countryKeys aliases) countryValue

/-! ## Sample data for concrete evaluations

The gazetteer data files are an external data source outside the
repository, so concrete evaluations run against a small sample index that
agrees with the behaviour the repository's test suite documents for the
names involved (`New York` is both a city and an admin division of the
US, `Hokkaido` is a Japanese admin division and not a city, `Japanese` is
the JP nationality, `China` is the CN country, …). -/

def sampleIndex : Index :=
  { nationalities := [("japanese", ⟨"JP", 0⟩), ("brazilian", ⟨"BR", 0⟩)]
  , cities :=
      [("new york", ⟨"US", 8000000⟩), ("rio de janeiro", ⟨"BR", 6000000⟩),
       ("havana", ⟨"CU", 2000000⟩), ("lima", ⟨"PE", 7000000⟩),
       ("dublin", ⟨"IE", 500000⟩), ("moscow", ⟨"RU", 11000000⟩),
       ("china", ⟨"CN", 500000⟩)]
  , countries :=
      [("japan", ⟨"JP", 126000000⟩), ("china", ⟨"CN", 1330000000⟩),
       ("russia", ⟨"RU", 140000000⟩)]
  , admin_divisions :=
      [("new york", ⟨"US", 19000000⟩), ("hokkaido", ⟨"JP", 5000000⟩)]
  , meta :=
      [("new york", [MatchType.cities, MatchType.admin_divisions]),
       ("rio de janeiro", [MatchType.cities]), ("havana", [MatchType.cities]),
       ("lima", [MatchType.cities]), ("dublin", [MatchType.cities]),
       ("moscow", [MatchType.cities]),
       ("china", [MatchType.cities, MatchType.countries]),
       ("japan", [MatchType.countries]), ("russia", [MatchType.countries]),
       ("japanese", [MatchType.nationalities]),
       ("hokkaido", [MatchType.admin_divisions])] }

/-! ## Lemmas about the normalizer -/

theorem dropWhile_head_false {α : Type} {p : α → Bool} :
    ∀ {l : List α} {a : α} {as : List α},
      l.dropWhile p = a :: as → p a = false := by
  intro l
  induction l with
  | nil => intro a as h; simp at h
  | cons x xs ih =>
      intro a as h
      rw [List.dropWhile_cons] at h
      split at h
      · exact ih h
      · cases h
        simp_all

theorem dropWhile_idem {α : Type} {p : α → Bool} (l : List α) :
    (l.dropWhile p).dropWhile p = l.dropWhile p := by
  cases h : l.dropWhile p with
  | nil => simp
  | cons a as => rw [List.dropWhile_cons, dropWhile_head_false h]; simp

theorem stripEnds_idem (p : Char → Bool) (t : List Char) :
    stripEnds p (stripEnds p t) = stripEnds p t := by
  unfold stripEnds
  have hA : (((t.dropWhile p).reverse.dropWhile p).reverse).dropWhile p =
      ((t.dropWhile p).reverse.dropWhile p).reverse := by
    cases hv : ((t.dropWhile p).reverse.dropWhile p).reverse with
    | nil => simp
    | cons a as =>
        have hsuf : (t.dropWhile p).reverse.dropWhile p <:+
            (t.dropWhile p).reverse := List.dropWhile_suffix p
        have hpre : ((t.dropWhile p).reverse.dropWhile p).reverse <+:
            t.dropWhile p := by
          have h1 := List.reverse_prefix.mpr hsuf
          simpa using h1
        obtain ⟨r, hr⟩ := hpre
        rw [hv] at hr
        have ha : p a = false :=
          dropWhile_head_false
            (show t.dropWhile p = a :: (as ++ r) from by rw [← hr]; rfl)
        rw [List.dropWhile_cons, ha]
        simp
  rw [hA, List.reverse_reverse, dropWhile_idem]

theorem mem_stripEnds {p : Char → Bool} {t : List Char} {c : Char}
    (h : c ∈ stripEnds p t) : c ∈ t := by
  unfold stripEnds at h
  rw [List.mem_reverse] at h
  have h1 := (List.dropWhile_suffix p).subset h
  rw [List.mem_reverse] at h1
  exact (List.dropWhile_suffix p).subset h1

theorem splitOnP_pieces {α : Type} (p : α → Bool) :
    ∀ (l : List α), ∀ piece ∈ l.splitOnP p, ∀ c ∈ piece,
      c ∈ l ∧ p c = false := by
  intro l
  induction l with
  | nil =>
      intro piece hp c hc
      rw [List.splitOnP_nil] at hp
      simp at hp
      subst hp
      simp at hc
  | cons x xs ih =>
      intro piece hp c hc
      rw [List.splitOnP_cons] at hp
      by_cases hx : p x = true
      · rw [if_pos hx] at hp
        rcases List.mem_cons.mp hp with h | h
        · subst h; simp at hc
        · obtain ⟨h1, h2⟩ := ih piece h c hc
          exact ⟨List.mem_cons_of_mem _ h1, h2⟩
      · rw [if_neg hx] at hp
        cases hsp : xs.splitOnP p with
        | nil => exact absurd hsp (List.splitOnP_ne_nil _ _)
        | cons h0 t0 =>
            rw [hsp, List.modifyHead_cons] at hp
            rcases List.mem_cons.mp hp with h | h
            · subst h
              rcases List.mem_cons.mp hc with rfl | hc2
              · exact ⟨List.mem_cons_self _ _, by simpa using hx⟩
              · obtain ⟨h1, h2⟩ := ih h0 (by rw [hsp]; exact List.mem_cons_self _ _) c hc2
                exact ⟨List.mem_cons_of_mem _ h1, h2⟩
            · obtain ⟨h1, h2⟩ := ih piece (by rw [hsp]; exact List.mem_cons_of_mem _ h) c hc
              exact ⟨List.mem_cons_of_mem _ h1, h2⟩

theorem mem_joinSp :
    ∀ {ts : List (List Char)} {c : Char},
      c ∈ joinSp ts → c = ' ' ∨ ∃ t ∈ ts, c ∈ t := by
  intro ts
  induction ts with
  | nil => intro c h; simp [joinSp] at h
  | cons t ts ih =>
      intro c h
      cases ts with
      | nil =>
          right
          exact ⟨t, by simp, by simpa [joinSp] using h⟩
      | cons t2 ts2 =>
          rw [show joinSp (t :: t2 :: ts2) = t ++ ' ' :: joinSp (t2 :: ts2)
            from rfl] at h
          rcases List.mem_append.mp h with h | h
          · right; exact ⟨t, by simp, h⟩
          · rcases List.mem_cons.mp h with rfl | h
            · left; rfl
            · rcases ih h with h | ⟨t3, h3, hc⟩
              · left; exact h
              · right; exact ⟨t3, List.mem_cons_of_mem _ h3, hc⟩

theorem splitOnP_joinSp (p : Char → Bool) (hsp : p ' ' = true) :
    ∀ T : List (List Char), (∀ t ∈ T, ∀ c ∈ t, p c = false) → T ≠ [] →
      (joinSp T).splitOnP p = T := by
  intro T
  induction T with
  | nil => intro _ h; exact absurd rfl h
  | cons t ts ih =>
      intro hfree _
      cases ts with
      | nil =>
          show (joinSp [t]).splitOnP p = [t]
          exact List.splitOnP_eq_single p t
            (fun x hx => by simp [hfree t (by simp) x hx])
      | cons t2 ts2 =>
          show (t ++ ' ' :: joinSp (t2 :: ts2)).splitOnP p = t :: t2 :: ts2
          rw [List.splitOnP_first p t
            (fun x hx => by simp [hfree t (by simp) x hx]) ' ' hsp]
          rw [ih (fun u hu c hc => hfree u (List.mem_cons_of_mem _ hu) c hc)
            (by simp)]

/-- The tokens of `normTokens` are nonempty, free of whitespace, periods
and separator characters, and fixed by another end-strip. -/
theorem normTokens_spec (cs : List Char) :
    ∀ t ∈ normTokens cs,
      (!t.isEmpty) = true ∧
      (∀ c ∈ t, c.isWhitespace = false ∧ (c == '.') = false ∧
        isSep c = false) ∧
      stripEnds isPunct t = t := by
  intro t ht
  unfold normTokens at ht
  obtain ⟨hmem, hne⟩ := List.mem_filter.mp ht
  obtain ⟨piece, hpiece, hstrip⟩ := List.mem_map.mp hmem
  refine ⟨hne, ?_, by rw [← hstrip, stripEnds_idem]⟩
  intro c hc
  have hc2 : c ∈ piece := mem_stripEnds (hstrip ▸ hc)
  obtain ⟨hc3, hws⟩ := splitOnP_pieces _ _ piece hpiece c hc2
  obtain ⟨c0, hc0, hfc0⟩ := List.mem_map.mp hc3
  refine ⟨hws, ?_⟩
  by_cases h0 : isSep c0 = true
  · rw [if_pos h0] at hfc0
    subst hfc0
    exact ⟨by decide, by decide⟩
  · rw [if_neg h0] at hfc0
    subst hfc0
    have := (List.mem_filter.mp hc0).2
    exact ⟨by simpa using this, by simpa using h0⟩

/-- Applying `normTokens` to the output of `normalize` recovers the very
same token list. -/
theorem normTokens_joinSp (cs : List Char) (hT : normTokens cs ≠ []) :
    normTokens (joinSp (normTokens cs)) = normTokens cs := by
  have hspec := normTokens_spec cs
  have hdot : ∀ c ∈ joinSp (normTokens cs), (c == '.') = false := by
    intro c hc
    rcases mem_joinSp hc with rfl | ⟨t, ht, hct⟩
    · decide
    · exact ((hspec t ht).2.1 c hct).2.1
  have hsep : ∀ c ∈ joinSp (normTokens cs), isSep c = false := by
    intro c hc
    rcases mem_joinSp hc with rfl | ⟨t, ht, hct⟩
    · decide
    · exact ((hspec t ht).2.1 c hct).2.2
  have h1 : (joinSp (normTokens cs)).filter (fun c => !(c == '.')) =
      joinSp (normTokens cs) :=
    List.filter_eq_self.mpr (fun c hc => by simp [hdot c hc])
  have h2 : (joinSp (normTokens cs)).map
      (fun c => if isSep c then ' ' else c) = joinSp (normTokens cs) :=
    (List.map_congr_left (fun c hc => by simp [hsep c hc])).trans
      (List.map_id _)
  have h3 : (joinSp (normTokens cs)).splitOnP (fun c => c.isWhitespace) =
      normTokens cs :=
    splitOnP_joinSp _ (by decide) _
      (fun t ht c hc => ((hspec t ht).2.1 c hc).1) hT
  have h4 : (normTokens cs).map (stripEnds isPunct) = normTokens cs :=
    (List.map_congr_left (fun t ht => (hspec t ht).2.2)).trans
      (List.map_id _)
  have h5 : (normTokens cs).filter (fun t => !t.isEmpty) = normTokens cs :=
    List.filter_eq_self.mpr (fun t ht => (hspec t ht).1)
  show (((((joinSp (normTokens cs)).filter (fun c => !(c == '.'))).map
      (fun c => if isSep c then ' ' else c)).splitOnP
        (fun c => c.isWhitespace)).map (stripEnds isPunct)).filter
    (fun t => !t.isEmpty) = normTokens cs
  rw [h1, h2, h3, h4, h5]

theorem normalizeChars_idem (cs : List Char) :
    normalizeChars (normalizeChars cs) = normalizeChars cs := by
  by_cases hT : normTokens cs = []
  · have h0 : normalizeChars cs = [] := by rw [normalizeChars, hT]; rfl
    rw [h0]
    rfl
  · show joinSp (normTokens (joinSp (normTokens cs))) = joinSp (normTokens cs)
    rw [normTokens_joinSp cs hT]

/-- C10: the `normalize` function is idempotent: for every string `s`,
`normalize (normalize s) = normalize s`, so applying normalization again
to already-normalized index keys or to tokens of normalized text never
changes them. -/
theorem C10_normalize_idempotent (s : String) :
    normalize (normalize s) = normalize s := by
  show String.mk (normalizeChars (String.mk (normalizeChars s.data)).data) =
    String.mk (normalizeChars s.data)
  rw [show (String.mk (normalizeChars s.data)).data = normalizeChars s.data
    from rfl, normalizeChars_idem]

/-! ## Lemmas about association-list maps -/

theorem contains_eq_false_iff {α : Type} [BEq α] [LawfulBEq α]
    (l : List α) (a : α) :
    l.contains a = false ↔ ¬ a ∈ l := by
  constructor
  · intro h hmem
    have h2 : l.contains a = true := List.elem_iff.mpr hmem
    rw [h] at h2
    cases h2
  · intro h
    cases hc : l.contains a
    · rfl
    · exact absurd (List.elem_iff.mp hc) h

theorem lookupP_cons {V : Type} (p : String × V) (rest : List (String × V))
    (k2 : String) :
    (p :: rest).lookup k2 = if k2 = p.1 then some p.2 else rest.lookup k2 := by
  obtain ⟨k0, v0⟩ := p
  by_cases h : k2 = k0
  · simp [List.lookup_cons, show (k2 == k0) = true by simpa using h, h]
  · simp [List.lookup_cons, show (k2 == k0) = false by simpa using h, h]

theorem lookup_setK {V : Type} (d : List (String × V)) (k : String) (v : V)
    (k2 : String) :
    (setK d k v).lookup k2 = if k2 = k then some v else d.lookup k2 := by
  induction d with
  | nil =>
      show ([(k, v)] : List (String × V)).lookup k2 = _
      rw [lookupP_cons]
  | cons p rest ih =>
      obtain ⟨k0, v0⟩ := p
      by_cases h0 : k0 = k
      · have hs : setK ((k0, v0) :: rest) k v = (k, v) :: rest := by
          rw [setK, if_pos h0]
        rw [hs, lookupP_cons, lookupP_cons]
        by_cases h : k2 = k
        · simp [h]
        · simp [h, show ¬ k2 = k0 from fun hh => h (hh.trans h0)]
      · have hs : setK ((k0, v0) :: rest) k v = (k0, v0) :: setK rest k v := by
          rw [setK, if_neg h0]
        rw [hs, lookupP_cons, lookupP_cons, ih]
        by_cases h : k2 = k0
        · simp [h, h0]
        · simp [h]

theorem getD_setK {V : Type} (d : List (String × V)) (k : String) (v : V)
    (k2 : String) (dflt : V) :
    getD (setK d k v) k2 dflt = if k2 = k then v else getD d k2 dflt := by
  unfold getD
  rw [lookup_setK]
  by_cases h : k2 = k <;> simp [h]

theorem mem_addTag (tags : List MatchType) (t0 t : MatchType) :
    t ∈ addTag tags t0 ↔ t ∈ tags ∨ t = t0 := by
  unfold addTag
  by_cases h : tags.contains t0 = true
  · rw [if_pos h]
    constructor
    · exact fun ht => Or.inl ht
    · rintro (ht | rfl)
      · exact ht
      · exact List.elem_iff.mp h
  · rw [if_neg h]
    simp [List.mem_append]

/-! ## Lemmas about the meta index (claim C9 machinery) -/

theorem metaTags_metaPass (t0 : MatchType) (names : List String) :
    ∀ (m : List (String × List MatchType)) (name : String) (t : MatchType),
      t ∈ metaTags (metaPass m t0 names) name ↔
        t ∈ metaTags m name ∨
          (t = t0 ∧ name ∈ names ∧ BLACKLIST.contains name = false) := by
  induction names with
  | nil => intro m name t; simp [metaPass]
  | cons n ns ih =>
      intro m name t
      have hstep : metaPass m t0 (n :: ns) =
          metaPass (if BLACKLIST.contains n then m
            else setK m n (addTag (getD m n []) t0)) t0 ns := rfl
      rw [hstep]
      by_cases hbl : BLACKLIST.contains n = true
      · rw [if_pos hbl, ih]
        constructor
        · rintro (h | ⟨rfl, hn, hb⟩)
          · exact Or.inl h
          · exact Or.inr ⟨rfl, List.mem_cons_of_mem _ hn, hb⟩
        · rintro (h | ⟨rfl, hn, hb⟩)
          · exact Or.inl h
          · rcases List.mem_cons.mp hn with rfl | hn2
            · rw [hb] at hbl
              cases hbl
            · exact Or.inr ⟨rfl, hn2, hb⟩
      · rw [if_neg hbl, ih]
        by_cases hname : name = n
        · subst hname
          have htags : metaTags (setK m name (addTag (getD m name []) t0))
              name = addTag (getD m name []) t0 := by
            unfold metaTags
            rw [lookup_setK]
            simp
          have hgd : getD m name [] = metaTags m name := rfl
          rw [htags, mem_addTag, hgd]
          have hnb : BLACKLIST.contains name = false :=
            Bool.eq_false_iff.mpr hbl
          constructor
          · rintro ((h | rfl) | ⟨rfl, _, _⟩)
            · exact Or.inl h
            · exact Or.inr ⟨rfl, List.mem_cons_self _ _, hnb⟩
            · exact Or.inr ⟨rfl, List.mem_cons_self _ _, hnb⟩
          · rintro (h | ⟨rfl, _, _⟩)
            · exact Or.inl (Or.inl h)
            · exact Or.inl (Or.inr rfl)
        · have htags : metaTags (setK m n (addTag (getD m n []) t0)) name =
              metaTags m name := by
            unfold metaTags
            rw [lookup_setK]
            simp [hname]
          rw [htags]
          constructor
          · rintro (h | ⟨rfl, hn, hb⟩)
            · exact Or.inl h
            · exact Or.inr ⟨rfl, List.mem_cons_of_mem _ hn, hb⟩
          · rintro (h | ⟨rfl, hn, hb⟩)
            · exact Or.inl h
            · rcases List.mem_cons.mp hn with h2 | h2
              · exact absurd h2 hname
              · exact Or.inr ⟨rfl, h2, hb⟩

theorem lookup_metaPass_blacklist (t0 : MatchType) (names : List String) :
    ∀ (m : List (String × List MatchType)) (name : String),
      BLACKLIST.contains name = true →
      (metaPass m t0 names).lookup name = m.lookup name := by
  induction names with
  | nil => intro m name _; rfl
  | cons n ns ih =>
      intro m name hbl
      have hstep : metaPass m t0 (n :: ns) =
          metaPass (if BLACKLIST.contains n then m
            else setK m n (addTag (getD m n []) t0)) t0 ns := rfl
      rw [hstep]
      by_cases hn : BLACKLIST.contains n = true
      · rw [if_pos hn, ih _ _ hbl]
      · rw [if_neg hn, ih _ _ hbl, lookup_setK]
        have : ¬ name = n := by
          intro h
          rw [h] at hbl
          exact hn hbl
        rw [if_neg this]

/-- The underlying category key list a tag refers to. -/
def tagSource (cities admin_divisions nationalities countries : List String) :
    MatchType → List String
  | MatchType.cities => cities
  | MatchType.admin_divisions => admin_divisions
  | MatchType.nationalities => nationalities
  | MatchType.countries => countries

/-- C9: after the meta-construction loop of `build_index`, the meta index
maps each name to exactly the set of category tags whose category map
contains that name, except that blacklisted names are entirely absent
from the meta index (while the category key lists themselves, being
inputs of the construction, are untouched by it). -/
theorem C9_meta_index (cities admin_divisions nationalities countries :
    List String) (name : String) (t : MatchType) :
    (t ∈ metaTags (buildMeta cities admin_divisions nationalities countries)
        name ↔
      (¬ name ∈ BLACKLIST ∧
        name ∈ tagSource cities admin_divisions nationalities countries t)) ∧
    (name ∈ BLACKLIST →
      (buildMeta cities admin_divisions nationalities countries).lookup
        name = none) := by
  constructor
  · unfold buildMeta
    rw [metaTags_metaPass, metaTags_metaPass, metaTags_metaPass,
      metaTags_metaPass]
    have hnil : metaTags ([] : List (String × List MatchType)) name = [] := rfl
    rw [hnil]
    have hb : BLACKLIST.contains name = false ↔ ¬ name ∈ BLACKLIST :=
      contains_eq_false_iff _ _
    cases t <;> simp [tagSource, hb] <;> tauto
  · intro hbl
    have hb : BLACKLIST.contains name = true := List.elem_iff.mpr hbl
    unfold buildMeta
    rw [lookup_metaPass_blacklist _ _ _ _ hb,
      lookup_metaPass_blacklist _ _ _ _ hb,
      lookup_metaPass_blacklist _ _ _ _ hb,
      lookup_metaPass_blacklist _ _ _ _ hb]
    rfl

/-- Witness for C9 at concrete inputs: `essex` (not blacklisted) receives
exactly its city tag, and the blacklisted word `of` is absent from the
meta index even when it is a category key. -/
theorem C9_witness :
    MatchType.cities ∈ metaTags (buildMeta ["essex"] [] [] []) "essex" ∧
    (buildMeta ["of"] [] [] []).lookup "of" = none :=
  ⟨(C9_meta_index ["essex"] [] [] [] "essex" MatchType.cities).1.mpr
      (by constructor <;> decide),
   (C9_meta_index ["of"] [] [] [] "of" MatchType.cities).2 (by decide)⟩

/-! ## Lemmas about the table loader (claim C8) -/

theorem foldlM_error {α β : Type} (f : β → α → Except String β)
    (P : α → Prop) (hf : ∀ b a, P a → ∃ e, f b a = Except.error e) :
    ∀ (l : List α) (b : β), (∃ a ∈ l, P a) →
      ∃ e, l.foldlM f b = Except.error e := by
  intro l
  induction l with
  | nil =>
      intro b h
      obtain ⟨a, ha, _⟩ := h
      simp at ha
  | cons x xs ih =>
      intro b h
      rw [List.foldlM_cons]
      obtain ⟨a, ha, hPa⟩ := h
      rcases List.mem_cons.mp ha with rfl | hxs
      · obtain ⟨e, he⟩ := hf b a hPa
        exact ⟨e, by rw [he]; rfl⟩
      · cases hfx : f b x with
        | error e => exact ⟨e, rfl⟩
        | ok b2 =>
            obtain ⟨e, he⟩ := ih b2 ⟨a, hxs, hPa⟩
            exact ⟨e, he⟩

/-- A countries-table row with at most 16 columns always fails: whatever
the value extractor does, the key extractor's access to column 16 raises
`IndexError`. -/
theorem readLine_country_short (aliases : List (String × List String))
    (d : List (String × PlaceData)) (l : String)
    (hP : (columnsOf '\t' l).length < 17) :
    ∃ e, readLine '\t' (countryKeys aliases) countryValue d l =
      Except.error e := by
  simp only [readLine]
  cases hv : countryValue (columnsOf '\t' l) with
  | error e => exact ⟨e, rfl⟩
  | ok v =>
      have hk : ∃ e, countryKeys aliases (columnsOf '\t' l) =
          Except.error e := by
        unfold countryKeys
        cases h4 : rowGet (columnsOf '\t' l) 4 with
        | error e => exact ⟨e, rfl⟩
        | ok k =>
            have h16 : rowGet (columnsOf '\t' l) 16 =
                Except.error "IndexError: list index out of range" := by
              unfold rowGet
              rw [List.get?_eq_none.mpr (by omega)]
            exact ⟨_, by rw [h16]; rfl⟩
      obtain ⟨e, he⟩ := hk
      exact ⟨e, by rw [he]; rfl⟩

/-- Counterexample to C8 as stated: an alias row whose id (`999`) matches
no entry of the primary alias table does **not** raise a load error — the
whole alias phase of `build_index` completes normally and the missing id
silently receives a fresh entry, because the primary table is a
`defaultdict(set)`. -/
theorem C8_counterexample :
    buildAliases ["x\t1\tx\tBig Apple"] ["999\tNYC"] =
      Except.ok [("1", ["Big Apple"]), ("999", ["NYC"])] := rfl

/-- C8 (amended): a gazetteer row with fewer fields than required by the
requested column indices is a fatal data-load error raised during index
construction (shown for the countries table, whose extractors read
columns 0, 7, 4 and 16, so any effective row with at most 16 columns
fails); but an alias reference to a missing geographic-record id is *not*
an error: the custom-alias merge silently creates a fresh entry for the
missing id (the primary alias map is a `defaultdict(set)`). -/
theorem C8_load_errors :
    (∀ (aliases : List (String × List String)) (lines : List String),
      (∃ l ∈ effectiveLines lines 1 '#', (columnsOf '\t' l).length < 17) →
      ∃ e, loadCountries aliases lines = Except.error e) ∧
    (∀ (aliases : List (String × List String)) (id : String)
        (aset : List String),
      aliases.lookup id = none →
      (mergeCustom aliases [(id, aset)]).lookup id =
        some (setUnion [] aset)) := by
  constructor
  · intro aliases lines h
    unfold loadCountries read_table
    exact foldlM_error _ (fun l => (columnsOf '\t' l).length < 17)
      (fun d l hP => readLine_country_short aliases d l hP) _ _ h
  · intro aliases id aset hmiss
    show (setK aliases id (setUnion (getD aliases id []) aset)).lookup id =
      some (setUnion [] aset)
    rw [lookup_setK]
    rw [if_pos rfl]
    unfold getD
    rw [hmiss]
    rfl

/-- Witness for C8 (amended) at concrete inputs: a two-column row in the
countries table aborts the load, and a custom alias for the missing id
`999` is silently merged. -/
theorem C8_witness :
    (∃ e, loadCountries [] ["header", "AD\tx"] = Except.error e) ∧
    (mergeCustom [("1", ["a"])] [("999", ["NYC"])]).lookup "999" =
      some (setUnion [] ["NYC"]) :=
  ⟨C8_load_errors.1 [] ["header", "AD\tx"] ⟨"AD\tx", by decide, by decide⟩,
   C8_load_errors.2 [("1", ["a"])] "999" ["NYC"] (by decide)⟩

/-! ## The country filter (claims C2 and C3) -/

/-- C2 (evaluation of the code at the failing input): with the filter
`country="JP"`, the aggressive parse of `"Japanese people"` finds the
nationality `Japanese`, whose index record is `("JP", 0)` — attributable
to `JP` — yet the constructed object's `nationalities` list is empty: the
source's nationality filter compares the `PlaceData` record itself (not
its `country` field) against the country string, which is always false.
Moreover, with `country="BR"`, `"Rio de Janeiro y Havana"` yields the
claimed `cities == ['Rio de Janeiro']` but `country_mentions` still
tallies `CU`: the tabulation reads the unfiltered buckets, not the
filtered lists.  (Both failures are independent of the category iteration
order, which only affects the tabulation loop.) -/
theorem C2_filter_eval :
    (geoTextInit sampleIndex "Japanese people" (some "JP") true
        canonicalOrder).map (fun r => r.nationalities) = Except.ok [] ∧
    (parse_aggressive sampleIndex.meta "Japanese people").nationalities =
      ["Japanese"] ∧
    sampleIndex.nationalities.lookup "japanese" =
      some ⟨"JP", 0⟩ ∧
    (geoTextInit sampleIndex "Rio de Janeiro y Havana" (some "BR") false
        canonicalOrder).map (fun r => (r.cities, r.country_mentions)) =
      Except.ok (["Rio de Janeiro"], [("BR", 1), ("CU", 1)]) :=
  ⟨rfl, rfl, rfl, rfl⟩

/-- C3 (evaluation of the code at the failing input): constructing
`GeoText("Hokkaido", country="JP")` (strict mode) raises `KeyError`: the
admin-division filter looks the division up in the **cities** index, and
`hokkaido` is an admin division but not a city.  So query-time extraction
is not total. -/
theorem C3_construction_raises :
    geoTextInit sampleIndex "Hokkaido" (some "JP") false canonicalOrder =
      Except.error "KeyError: hokkaido" := rfl

/-! ## Lemmas about the aggressive scan (claims C6, C7, C5 machinery) -/

theorem mem_downRange : ∀ (hi lo x : Nat),
    x ∈ downRange hi lo ↔ lo < x ∧ x ≤ hi := by
  intro hi
  induction hi with
  | zero => intro lo x; rw [downRange]; simp; omega
  | succ h ih =>
      intro lo x
      rw [downRange]
      by_cases hle : h + 1 ≤ lo
      · rw [if_pos hle]
        simp
        omega
      · rw [if_neg hle]
        rw [List.mem_cons, ih]
        omega

/-- What an accepted inner-loop result tells us: the accepted length is
one of the tried window lengths, the candidate is the join of the window's
tokens, and its tag set is the (nonempty) meta lookup of its lowercase
form. -/
theorem tryLengths_spec (meta : List (String × List MatchType))
    (tokens : List String) (i : Nat) :
    ∀ (lens : List Nat) (len : Nat) (cand : String) (ts : List MatchType),
      tryLengths meta tokens i lens = some (len, cand, ts) →
      len ∈ lens ∧ cand = joinWords ((tokens.drop i).take len) ∧
      ts = metaTags meta (pyLower cand) ∧ ts ≠ [] := by
  intro lens
  induction lens with
  | nil => intro len cand ts h; simp [tryLengths] at h
  | cons l rest ih =>
      intro len cand ts h
      simp only [tryLengths] at h
      split at h
      · obtain ⟨h1, h2, h3, h4⟩ := ih _ _ _ h
        exact ⟨List.mem_cons_of_mem _ h1, h2, h3, h4⟩
      · split at h
        · obtain ⟨h1, h2, h3, h4⟩ := ih _ _ _ h
          exact ⟨List.mem_cons_of_mem _ h1, h2, h3, h4⟩
        · rename_i hne
          cases h
          refine ⟨List.mem_cons_self _ _, rfl, rfl, ?_⟩
          intro hempty
          rw [hempty] at hne
          exact hne rfl

/-- The structural invariant of the aggressive scan: every accepted match
starts at or after the current index, ends past the span still covered by
the previous match, has an accepted window length, carries the join of
its window as candidate and the meta tags of that candidate; and the
matches are pairwise ordered with strictly increasing starts *and*
strictly increasing ends. -/
theorem aggGo_spec (meta : List (String × List MatchType))
    (tokens : List String) (n : Nat) :
    ∀ (k i prev0 : Nat),
      (∀ m ∈ aggGo meta tokens n k i prev0,
        i ≤ m.start ∧ i + prev0 ≤ m.start + m.len ∧ 1 ≤ m.len ∧
        m.len ≤ min 4 (n - m.start) ∧
        m.cand = joinWords ((tokens.drop m.start).take m.len) ∧
        m.types = metaTags meta (pyLower m.cand) ∧ m.types ≠ []) ∧
      List.Pairwise
        (fun m1 m2 => m1.start < m2.start ∧
          m1.start + m1.len < m2.start + m2.len)
        (aggGo meta tokens n k i prev0) := by
  intro k
  induction k with
  | zero =>
      intro i prev0
      constructor
      · intro m hm; simp [aggGo] at hm
      · rw [show aggGo meta tokens n 0 i prev0 = [] from rfl]
        exact List.Pairwise.nil
  | succ k ih =>
      intro i prev0
      rw [show aggGo meta tokens n (k + 1) i prev0 =
        (match tryLengths meta tokens i
            (downRange (min 4 (n - i)) (prev0 - 1)) with
        | none => aggGo meta tokens n k (i + 1) (prev0 - 1)
        | some (length, cand, ts) =>
            ⟨i, length, cand, ts⟩ :: aggGo meta tokens n k (i + 1) length)
        from rfl]
      cases htry : tryLengths meta tokens i
          (downRange (min 4 (n - i)) (prev0 - 1)) with
      | none =>
          obtain ⟨ihall, ihpw⟩ := ih (i + 1) (prev0 - 1)
          constructor
          · intro m hm
            obtain ⟨h1, h2, h3, h4, h5, h6, h7⟩ := ihall m hm
            exact ⟨by omega, by omega, h3, h4, h5, h6, h7⟩
          · exact ihpw
      | some r =>
          obtain ⟨length, cand, ts⟩ := r
          obtain ⟨hmem, hcand, hts, htsne⟩ := tryLengths_spec _ _ _ _ _ _ _ htry
          rw [mem_downRange] at hmem
          obtain ⟨hm1, hm2⟩ := hmem
          obtain ⟨ihall, ihpw⟩ := ih (i + 1) length
          constructor
          · intro m hm
            rcases List.mem_cons.mp hm with rfl | hm2a
            · refine ⟨le_refl _, ?_, ?_, hm2, hcand, hts, htsne⟩
              · show i + prev0 ≤ i + length
                omega
              · show 1 ≤ length
                omega
            · obtain ⟨h1, h2, h3, h4, h5, h6, h7⟩ := ihall m hm2a
              exact ⟨by omega, by omega, h3, h4, h5, h6, h7⟩
          · refine List.Pairwise.cons ?_ ihpw
            intro m hm
            obtain ⟨h1, h2, _, _, _, _, _⟩ := ihall m hm
            constructor
            · show i < m.start
              omega
            · show i + length < m.start + m.len
              omega

/-- C6: in aggressive mode, no accepted match occupies a token span
strictly contained within the token span of another match of the same
scan: the scanner only accepts windows strictly longer than the previous
match's residual length (`range(min(4, len(tokens) - i), prev_match_len,
-1)`) and stops at the first hit, so the accepted matches have strictly
increasing starts and strictly increasing ends, and neither of two
matches can contain the other.  (The buckets of `parse_aggressive` are
assembled exactly from these matches.) -/
theorem C6_no_contained_spans (meta : List (String × List MatchType))
    (text : String) :
    List.Pairwise (fun m1 m2 => ¬ spanWithin m1 m2 ∧ ¬ spanWithin m2 m1)
      (aggressiveScan meta (pySplit (normalize text))) := by
  have h := (aggGo_spec meta (pySplit (normalize text))
    (pySplit (normalize text)).length (pySplit (normalize text)).length
    0 0).2
  refine h.imp ?_
  rintro m1 m2 ⟨h1, h2⟩
  constructor
  · rintro ⟨ha, hb, _⟩
    omega
  · rintro ⟨ha, hb, _⟩
    omega

/-! ## Lemmas about bucket assembly -/

theorem get_app (b : Buckets) (u t : MatchType) (x : String) :
    (b.app u x).get t = if t = u then b.get t ++ [x] else b.get t := by
  cases u <;> cases t <;> simp [Buckets.app, Buckets.get]

theorem mem_foldTypes (x s : String) (t : MatchType) :
    ∀ (types : List MatchType) (bks : Buckets),
      s ∈ (types.foldl (fun b u => b.app u x) bks).get t →
      s ∈ bks.get t ∨ (x = s ∧ t ∈ types) := by
  intro types
  induction types with
  | nil => intro bks h; exact Or.inl h
  | cons u us ih =>
      intro bks h
      rcases ih (bks.app u x) h with h2 | ⟨rfl, ht⟩
      · rw [get_app] at h2
        by_cases htu : t = u
        · rw [if_pos htu] at h2
          rcases List.mem_append.mp h2 with h3 | h3
          · exact Or.inl h3
          · exact Or.inr ⟨(List.mem_singleton.mp h3).symm,
              htu ▸ List.mem_cons_self _ _⟩
        · rw [if_neg htu] at h2
          exact Or.inl h2
      · exact Or.inr ⟨rfl, List.mem_cons_of_mem _ ht⟩

theorem mem_accumulate (cands : List (String × List MatchType))
    (t : MatchType) (s : String) (h : s ∈ (accumulate cands).get t) :
    ∃ p ∈ cands, p.1 = s ∧ t ∈ p.2 := by
  suffices hgen : ∀ (cs : List (String × List MatchType)) (bks : Buckets),
      s ∈ (cs.foldl (fun bks p => p.2.foldl (fun b u => b.app u p.1) bks)
        bks).get t →
      s ∈ bks.get t ∨ ∃ p ∈ cs, p.1 = s ∧ t ∈ p.2 by
    rcases hgen cands Buckets.empty h with h2 | h2
    · cases t <;> simp [Buckets.empty, Buckets.get] at h2
    · exact h2
  intro cs
  induction cs with
  | nil => intro bks h2; exact Or.inl h2
  | cons p ps ih =>
      intro bks h2
      rcases ih _ h2 with h3 | ⟨q, hq, hq2⟩
      · rcases mem_foldTypes _ _ _ _ _ h3 with h4 | ⟨h4, h5⟩
        · exact Or.inl h4
        · exact Or.inr ⟨p, List.mem_cons_self _ _, h4, h5⟩
      · exact Or.inr ⟨q, List.mem_cons_of_mem _ hq, hq2⟩

/-! ## `joinSp` of a token slice is an infix of the full join -/

theorem joinSp_prefix : ∀ (mid post : List (List Char)), mid ≠ [] →
    joinSp mid <+: joinSp (mid ++ post) := by
  intro mid
  induction mid with
  | nil => intro post h; exact absurd rfl h
  | cons m ms ih =>
      intro post _
      cases ms with
      | nil =>
          cases post with
          | nil => exact List.prefix_refl _
          | cons q qs =>
              show m <+: m ++ ' ' :: joinSp (q :: qs)
              exact ⟨' ' :: joinSp (q :: qs), rfl⟩
      | cons m2 ms2 =>
          obtain ⟨r, hr⟩ := ih post (by simp)
          show m ++ ' ' :: joinSp (m2 :: ms2) <+:
            m ++ ' ' :: joinSp ((m2 :: ms2) ++ post)
          exact ⟨r, by rw [← hr]; simp⟩

theorem joinSp_suffix : ∀ (pre mid : List (List Char)), mid ≠ [] →
    joinSp mid <:+ joinSp (pre ++ mid) := by
  intro pre
  induction pre with
  | nil => intro mid _; simp
  | cons p ps ih =>
      intro mid h
      have h1 := ih mid h
      have h2 : joinSp (ps ++ mid) <:+ joinSp (p :: (ps ++ mid)) := by
        cases hpm : ps ++ mid with
        | nil =>
            rcases List.append_eq_nil.mp hpm with ⟨_, h3⟩
            exact absurd h3 h
        | cons a as =>
            show joinSp (a :: as) <:+ p ++ ' ' :: joinSp (a :: as)
            exact ⟨p ++ [' '], by simp⟩
      exact h1.trans h2

theorem joinSp_slice_within (T : List (List Char)) (i len : Nat)
    (hlen : 1 ≤ len) (hle : i + len ≤ T.length) :
    joinSp ((T.drop i).take len) <:+: joinSp T := by
  have hlenslice : ((T.drop i).take len).length = len := by
    rw [List.length_take, List.length_drop]
    omega
  have hslice : (T.drop i).take len ≠ [] := by
    intro h
    rw [h] at hlenslice
    simp at hlenslice
    omega
  have h1 : (T.drop i).take len ++ T.drop (i + len) = T.drop i := by
    have := List.take_append_drop len (T.drop i)
    rwa [List.drop_drop] at this
  have h2 : T.take i ++ T.drop i = T := List.take_append_drop _ _
  have hdecomp : T = T.take i ++ ((T.drop i).take len ++ T.drop (i + len)) := by
    rw [h1]
    exact h2.symm
  have hpre : joinSp ((T.drop i).take len) <+:
      joinSp ((T.drop i).take len ++ T.drop (i + len)) :=
    joinSp_prefix _ _ hslice
  have hsuf : joinSp ((T.drop i).take len ++ T.drop (i + len)) <:+
      joinSp (T.take i ++ ((T.drop i).take len ++ T.drop (i + len))) :=
    joinSp_suffix _ _ (by
      intro hx
      exact hslice (List.append_eq_nil.mp hx).1)
  rw [← hdecomp] at hsuf
  exact hpre.isInfix.trans hsuf.isInfix

/-- The tokens `normalize(text).split()` are exactly the normalizer's own
token list, so joining any window of them lands inside the normalized
text. -/
theorem pySplit_normalize_data (text : String) :
    (pySplit (normalize text)).map String.data = normTokens text.data := by
  unfold pySplit
  have hd : (normalize text).data = joinSp (normTokens text.data) := rfl
  rw [hd]
  by_cases hT : normTokens text.data = []
  · rw [hT]
    rfl
  · have hspec := normTokens_spec text.data
    rw [splitOnP_joinSp _ (by decide) _
      (fun t ht c hc => ((hspec t ht).2.1 c hc).1) hT]
    rw [List.filter_eq_self.mpr (fun t ht => (hspec t ht).1)]
    rw [List.map_map]
    exact (List.map_congr_left (fun t _ => rfl)).trans (List.map_id _)

/-- Aggressive-mode substring property: every bucket entry of
`parse_aggressive` is a verbatim substring of the normalized text. -/
theorem parse_aggressive_within (meta : List (String × List MatchType))
    (text : String) (t : MatchType) (s : String)
    (h : s ∈ (parse_aggressive meta text).get t) :
    s.data <:+: (normalize text).data := by
  unfold parse_aggressive at h
  obtain ⟨p, hp, hps, _⟩ := mem_accumulate _ _ _ h
  obtain ⟨m, hm, hmp⟩ := List.mem_map.mp hp
  obtain ⟨_, _, hlen1, hlen4, hcand, _, _⟩ :=
    (aggGo_spec meta (pySplit (normalize text))
      (pySplit (normalize text)).length (pySplit (normalize text)).length
      0 0).1 m hm
  have hs : s.data = joinSp ((((pySplit (normalize text)).map
      String.data).drop m.start).take m.len) := by
    rw [← hps, ← hmp]
    show m.cand.data = _
    rw [hcand]
    show joinSp ((((pySplit (normalize text)).drop m.start).take
      m.len).map String.data) = _
    rw [List.map_take, List.map_drop]
  rw [hs, pySplit_normalize_data]
  have hT : (normalize text).data = joinSp (normTokens text.data) := rfl
  rw [hT]
  apply joinSp_slice_within _ _ _ hlen1
  have hlen : (normTokens text.data).length =
      (pySplit (normalize text)).length := by
    rw [← pySplit_normalize_data]
    rw [List.length_map]
  rw [hlen]
  omega

/-! ## The strict-mode matcher covers a contiguous piece of the text -/

theorem matchA_join {cs m rest : List Char}
    (h : matchA cs = some (m, rest)) : m ++ rest = cs ∧ m ≠ [] := by
  simp only [matchA] at h
  split at h
  · cases h
  · split at h
    · cases h
    · rename_i hcaps _
      cases h
      constructor
      · rw [List.append_assoc, List.takeWhile_append_dropWhile,
          List.takeWhile_append_dropWhile]
      · intro hm
        rw [List.append_eq_nil] at hm
        exact hcaps (by rw [hm.1]; rfl)

theorem matchB_join (cs : List Char) : (matchB cs).1 ++ (matchB cs).2 = cs := by
  cases cs with
  | nil => rfl
  | cons c rest =>
      simp only [matchB]
      split <;> rfl

theorem matchC_join (cs : List Char) : (matchC cs).1 ++ (matchC cs).2 = cs := by
  rcases cs with _ | ⟨c1, _ | ⟨c2, _ | ⟨c3, rest⟩⟩⟩
  · rfl
  · rfl
  · rfl
  · simp only [matchC]
    split <;> rfl

theorem matchD_join : ∀ (fuel : Nat) (cs : List Char),
    (matchD fuel cs).1 ++ (matchD fuel cs).2 = cs := by
  intro fuel
  induction fuel with
  | zero => intro cs; rfl
  | succ f ih =>
      intro cs
      cases hA : matchA cs with
      | none =>
          show (matchD (f + 1) cs).1 ++ (matchD (f + 1) cs).2 = cs
          simp only [matchD]
          rw [hA]
          rfl
      | some pr =>
          obtain ⟨m, rest⟩ := pr
          have hAj := (matchA_join hA).1
          show (matchD (f + 1) cs).1 ++ (matchD (f + 1) cs).2 = cs
          simp only [matchD]
          rw [hA]
          show (m ++ (matchD f rest).1) ++ (matchD f rest).2 = cs
          rw [List.append_assoc, ih rest, hAj]

theorem matchRegex_join {cs m rest : List Char}
    (h : matchRegex cs = some (m, rest)) : m ++ rest = cs ∧ m ≠ [] := by
  simp only [matchRegex] at h
  cases hA : matchA cs with
  | none => rw [hA] at h; cases h
  | some pr =>
      obtain ⟨a, r1⟩ := pr
      rw [hA] at h
      obtain ⟨hAj, hane⟩ := matchA_join hA
      have h2 := Option.some.inj h
      have hm : a ++ ((matchB r1).1 ++ ((matchC (matchB r1).2).1 ++
          (matchD (matchC (matchB r1).2).2.length
            (matchC (matchB r1).2).2).1)) = m := congrArg Prod.fst h2
      have hr : (matchD (matchC (matchB r1).2).2.length
          (matchC (matchB r1).2).2).2 = rest := congrArg Prod.snd h2
      constructor
      · rw [← hm, ← hr]
        simp only [List.append_assoc]
        rw [matchD_join, matchC_join, matchB_join, hAj]
      · rw [← hm]
        intro hx
        rw [List.append_eq_nil] at hx
        exact hane hx.1

/-- The invariant of `findall`: every reported match is an infix of the
scanned characters, and match positions strictly increase along the
result list. -/
theorem findallGo_spec : ∀ (fuel pos : Nat) (cs : List Char),
    (∀ pm ∈ findallGo fuel pos cs, pos ≤ pm.1 ∧ pm.2 <:+: cs) ∧
    List.Pairwise (fun a b => a.1 < b.1) (findallGo fuel pos cs) := by
  intro fuel
  induction fuel with
  | zero =>
      intro pos cs
      constructor
      · intro pm h; simp [findallGo] at h
      · show List.Pairwise _ ([] : List (Nat × List Char))
        exact List.Pairwise.nil
  | succ f ih =>
      intro pos cs
      cases cs with
      | nil =>
          constructor
          · intro pm h; simp [findallGo] at h
          · show List.Pairwise _ ([] : List (Nat × List Char))
            exact List.Pairwise.nil
      | cons c rest =>
          rw [show findallGo (f + 1) pos (c :: rest) =
            (match matchRegex (c :: rest) with
            | some (m, r) => (pos, m) :: findallGo f (pos + m.length) r
            | none => findallGo f (pos + 1) rest) from rfl]
          cases hmr : matchRegex (c :: rest) with
          | none =>
              obtain ⟨iall, ipw⟩ := ih (pos + 1) rest
              constructor
              · intro pm h
                obtain ⟨h1, h2⟩ := iall pm h
                exact ⟨by omega, h2.trans (List.suffix_cons c rest).isInfix⟩
              · exact ipw
          | some pr =>
              obtain ⟨m, r⟩ := pr
              obtain ⟨hjoin, hne⟩ := matchRegex_join hmr
              have hml : 0 < m.length := List.length_pos.mpr hne
              obtain ⟨iall, ipw⟩ := ih (pos + m.length) r
              constructor
              · intro pm h
                rcases List.mem_cons.mp h with rfl | h2
                · exact ⟨le_refl _, [], r, by simpa using hjoin⟩
                · obtain ⟨h3, h4⟩ := iall pm h2
                  have hrs : r <:+ c :: rest := ⟨m, hjoin⟩
                  exact ⟨by omega, h4.trans hrs.isInfix⟩
              · refine List.Pairwise.cons ?_ ipw
                intro pm h
                have h5 := (iall pm h).1
                show pos < pm.1
                omega

theorem stripEnds_within (p : Char → Bool) (t : List Char) :
    stripEnds p t <:+: t := by
  unfold stripEnds
  have h1 : t.dropWhile p <:+ t := List.dropWhile_suffix p
  have h2 : ((t.dropWhile p).reverse.dropWhile p).reverse <+:
      t.dropWhile p := by
    have h4 : (t.dropWhile p).reverse.dropWhile p <:+
        (t.dropWhile p).reverse := List.dropWhile_suffix p
    have h3 := List.reverse_prefix.mpr h4
    simpa using h3
  exact h2.isInfix.trans h1.isInfix

/-- `Buckets.get` after the strict mode's final
`matches[NATIONALITIES] = []`. -/
theorem get_clear_nats (bks : Buckets) (t : MatchType) :
    ({ bks with nationalities := [] } : Buckets).get t =
      if t = MatchType.nationalities then [] else bks.get t := by
  cases t <;> simp [Buckets.get]

/-- Strict-mode substring property: every bucket entry of `parse` is a
verbatim substring of the original text. -/
theorem parse_within (meta : List (String × List MatchType)) (text : String)
    (t : MatchType) (s : String) (h : s ∈ (parse meta text).get t) :
    s.data <:+: text.data := by
  unfold parse at h
  rw [get_clear_nats] at h
  by_cases ht : t = MatchType.nationalities
  · rw [if_pos ht] at h
    simp at h
  · rw [if_neg ht] at h
    obtain ⟨p, hp, hps, _⟩ := mem_accumulate _ _ _ h
    obtain ⟨pc, hpc, hpcp⟩ := List.mem_map.mp hp
    obtain ⟨pm, hpm, hpmc⟩ := List.mem_map.mp hpc
    have hsdata : s.data = stripEnds Char.isWhitespace pm.2 := by
      rw [← hps, ← hpcp]
      show pc.2.data = _
      rw [← hpmc]
      rfl
    have hinfix1 : stripEnds Char.isWhitespace pm.2 <:+: pm.2 :=
      stripEnds_within _ _
    have hinfix2 : pm.2 <:+: text.data :=
      ((findallGo_spec text.data.length 0 text.data).1 pm hpm).2
    rw [hsdata]
    exact hinfix1.trans hinfix2

/-! ## Claim C7 -/

/-- Counterexample to C7 as stated: in strict mode the regex candidate
keeps the original separator characters, so on the text `"New-York"` the
returned city string `"New-York"` (a meta-index hit, since
`normalize("New-York").lower() = "new york"` is a city key) is **not** a
substring of the normalized text `normalize("New-York") = "New York"`. -/
theorem C7_counterexample :
    (parse sampleIndex.meta "New-York").cities = ["New-York"] ∧
    ¬ ("New-York".data <:+: (normalize "New-York").data) := by
  constructor
  · rfl
  · decide

/-- C7 (amended): every string returned by aggressive-mode extraction is
a verbatim substring of the *normalized* text; every string returned by
strict-mode extraction is a verbatim substring of the *original* text
(but, as the counterexample shows, not always of the normalized text);
and both scanners emit their matches at strictly increasing positions, so
the buckets list the matched substrings in scan order (order of
appearance) with no fabricated content. -/
theorem C7_substrings :
    (∀ (meta : List (String × List MatchType)) (text : String)
        (t : MatchType) (s : String),
      s ∈ (parse_aggressive meta text).get t →
      s.data <:+: (normalize text).data) ∧
    (∀ (meta : List (String × List MatchType)) (text : String)
        (t : MatchType) (s : String),
      s ∈ (parse meta text).get t → s.data <:+: text.data) ∧
    (∀ (meta : List (String × List MatchType)) (text : String),
      List.Pairwise (fun m1 m2 => m1.start < m2.start)
        (aggressiveScan meta (pySplit (normalize text)))) ∧
    (∀ cs : List Char,
      List.Pairwise (fun a b => a.1 < b.1) (findall cs)) :=
  ⟨parse_aggressive_within, parse_within,
   fun meta text =>
     ((aggGo_spec meta (pySplit (normalize text))
        (pySplit (normalize text)).length (pySplit (normalize text)).length
        0 0).2).imp (fun h => h.1),
   fun cs => (findallGo_spec cs.length 0 cs).2⟩

/-- Witness for C7 (amended) at concrete inputs: the aggressive parse of
`"Japan  is nice."` returns `Japan` inside the normalized text, and the
strict parse of `"in Hokkaido!"` returns `Hokkaido` inside the original
text. -/
theorem C7_witness :
    "Japan".data <:+: (normalize "Japan  is nice.").data ∧
    "Hokkaido".data <:+: "in Hokkaido!".data :=
  ⟨C7_substrings.1 sampleIndex.meta "Japan  is nice." MatchType.countries
      "Japan" (by decide),
   C7_substrings.2.1 sampleIndex.meta "in Hokkaido!"
      MatchType.admin_divisions "Hokkaido" (by decide)⟩

/-! ## Lemmas about the mention tabulator (claims C1, C4, C5) -/

theorem bind_ok {α β : Type} {x : Except String α} {f : α → Except String β}
    {b : β} (h : (x >>= f) = Except.ok b) :
    ∃ a, x = Except.ok a ∧ f a = Except.ok b := by
  cases x with
  | error e => cases h
  | ok a => exact ⟨a, rfl, h⟩

theorem mapsToB_lookup {cat : CatMap} {s : String} {pd : PlaceData}
    (h : cat.lookup (pyLower s) = some pd) (c : String) :
    mapsToB cat s c = (pd.country == c) := by
  unfold mapsToB
  rw [h]

/-- Evaluation of one inner tabulation step on a resolvable string whose
`(country, string)` pair has already been seen. -/
theorem processString_seen (cat : CatMap) (st : TabState)
    (nm : List (String × String)) (s : String) (pd : PlaceData)
    (hpd : cat.lookup (pyLower s) = some pd)
    (hseen : (pd.country, s) ∈ st.seen) :
    processString cat (st, nm) s = Except.ok
      (⟨setK st.maxPop pd.country
          (max (getD st.maxPop pd.country 0) pd.population),
        st.mentions, st.seen⟩, nm) := by
  unfold processString getE
  rw [hpd]
  show (if (pd.country, s) ∈ st.seen then _ else _) = _
  rw [if_pos hseen]
  rfl

/-- Evaluation of one inner tabulation step on a resolvable string whose
`(country, string)` pair is new: the mention is counted and the pair is
appended to `new_matches`. -/
theorem processString_new (cat : CatMap) (st : TabState)
    (nm : List (String × String)) (s : String) (pd : PlaceData)
    (hpd : cat.lookup (pyLower s) = some pd)
    (hseen : ¬ (pd.country, s) ∈ st.seen) :
    processString cat (st, nm) s = Except.ok
      (⟨setK st.maxPop pd.country
          (max (getD st.maxPop pd.country 0) pd.population),
        setK st.mentions pd.country (getD st.mentions pd.country 0 + 1),
        st.seen⟩, nm ++ [(pd.country, s)]) := by
  unfold processString getE
  rw [hpd]
  show (if (pd.country, s) ∈ st.seen then _ else _) = _
  rw [if_neg hseen]
  rfl

/-- The full behaviour of one bucket pass (the inner fold of
`processType`): the seen set is untouched, every country's mention count
grows by the number of occurrences of its not-yet-seen attributable
strings, the per-country maximum population absorbs the bucket's
populations, and `new_matches` collects exactly the newly counted
`(country, string)` pairs. -/
theorem processBucket_spec (cat : CatMap) :
    ∀ (bucket : List String) (st : TabState) (nm : List (String × String))
      (out : TabState × List (String × String)),
      bucket.foldlM (processString cat) (st, nm) = Except.ok out →
      out.1.seen = st.seen ∧
      (∀ c, getD out.1.mentions c 0 = getD st.mentions c 0 +
        (bucket.filter (fun s => mapsToB cat s c &&
          !(st.seen.contains (c, s)))).length) ∧
      (∀ c, getD out.1.maxPop c 0 =
        max (getD st.maxPop c 0) (popsOf cat bucket c)) ∧
      (∀ pr : String × String, pr ∈ out.2 ↔ pr ∈ nm ∨
        (pr.2 ∈ bucket ∧ mapsToB cat pr.2 pr.1 = true ∧ ¬ pr ∈ st.seen)) := by
  intro bucket
  induction bucket with
  | nil =>
      intro st nm out h
      have hout : (st, nm) = out := Except.ok.inj h
      rw [← hout]
      refine ⟨rfl, fun c => by simp, fun c => by simp [popsOf], fun pr => ?_⟩
      simp
  | cons s rest ih =>
      intro st nm out h
      rw [List.foldlM_cons] at h
      obtain ⟨acc1, hps, hrest⟩ := bind_ok h
      cases hpd : cat.lookup (pyLower s) with
      | none =>
          rw [show processString cat (st, nm) s =
              Except.error ("KeyError: " ++ pyLower s) by
            unfold processString getE
            rw [hpd]
            rfl] at hps
          cases hps
      | some pd =>
          have hmaps := mapsToB_lookup hpd
          by_cases hseenP : (pd.country, s) ∈ st.seen
          · have hseen : st.seen.contains (pd.country, s) = true :=
              List.elem_iff.mpr hseenP
            rw [processString_seen cat st nm s pd hpd hseenP] at hps
            rw [← Except.ok.inj hps] at hrest
            obtain ⟨ih1, ih2, ih3, ih4⟩ := ih _ _ _ hrest
            refine ⟨ih1, ?_, ?_, ?_⟩
            · intro c
              rw [ih2 c]
              simp only [List.filter_cons]
              by_cases hc : pd.country = c
              · subst hc
                rw [hmaps]
                simp [hseenP]
              · have hbeq : (pd.country == c) = false := by simpa using hc
                rw [hmaps, hbeq]
                simp
            · intro c
              rw [ih3 c]
              show max (getD (setK st.maxPop pd.country
                (max (getD st.maxPop pd.country 0) pd.population)) c 0)
                (popsOf cat rest c) = _
              rw [getD_setK]
              rw [show popsOf cat (s :: rest) c =
                max (match cat.lookup (pyLower s) with
                  | some pd => if pd.country == c then pd.population else 0
                  | none => 0) (popsOf cat rest c) from rfl, hpd]
              rw [show (match some pd with
                  | some pd => if pd.country == c then pd.population else 0
                  | none => 0) =
                (if pd.country == c then pd.population else 0) from rfl]
              by_cases hc : c = pd.country
              · subst hc
                simp only [if_pos rfl, beq_self_eq_true, if_true]
                omega
              · have hbeq : (pd.country == c) = false := by
                  simp only [beq_eq_false_iff_ne, ne_eq]
                  exact fun hx => hc hx.symm
                rw [if_neg hc, hbeq]
                simp
            · intro pr
              rw [ih4 pr]
              show pr ∈ nm ∨ (pr.2 ∈ rest ∧ _ ∧ ¬ pr ∈ st.seen) ↔ _
              constructor
              · rintro (h1 | ⟨h1, h2, h3⟩)
                · exact Or.inl h1
                · exact Or.inr ⟨List.mem_cons_of_mem _ h1, h2, h3⟩
              · rintro (h1 | ⟨h1, h2, h3⟩)
                · exact Or.inl h1
                · rcases List.mem_cons.mp h1 with heq | h1r
                  · obtain ⟨c0, s0⟩ := pr
                    simp only at heq
                    subst heq
                    rw [hmaps] at h2
                    have hcc : pd.country = c0 := by simpa using h2
                    subst hcc
                    exact absurd hseenP h3
                  · exact Or.inr ⟨h1r, h2, h3⟩
          · have hseen : st.seen.contains (pd.country, s) = false :=
              (contains_eq_false_iff _ _).mpr hseenP
            rw [processString_new cat st nm s pd hpd hseenP] at hps
            rw [← Except.ok.inj hps] at hrest
            obtain ⟨ih1, ih2, ih3, ih4⟩ := ih _ _ _ hrest
            refine ⟨ih1, ?_, ?_, ?_⟩
            · intro c
              rw [ih2 c]
              simp only [List.filter_cons]
              show getD (setK st.mentions pd.country
                (getD st.mentions pd.country 0 + 1)) c 0 + _ = _
              rw [getD_setK]
              by_cases hc : c = pd.country
              · subst hc
                rw [if_pos rfl, hmaps]
                simp [hseenP]
                omega
              · have hbeq : (pd.country == c) = false := by
                  simp only [beq_eq_false_iff_ne, ne_eq]
                  exact fun hx => hc hx.symm
                rw [if_neg hc, hmaps, hbeq]
                simp
            · intro c
              rw [ih3 c]
              show max (getD (setK st.maxPop pd.country
                (max (getD st.maxPop pd.country 0) pd.population)) c 0)
                (popsOf cat rest c) = _
              rw [getD_setK]
              rw [show popsOf cat (s :: rest) c =
                max (match cat.lookup (pyLower s) with
                  | some pd => if pd.country == c then pd.population else 0
                  | none => 0) (popsOf cat rest c) from rfl, hpd]
              rw [show (match some pd with
                  | some pd => if pd.country == c then pd.population else 0
                  | none => 0) =
                (if pd.country == c then pd.population else 0) from rfl]
              by_cases hc : c = pd.country
              · subst hc
                simp only [if_pos rfl, beq_self_eq_true, if_true]
                omega
              · have hbeq : (pd.country == c) = false := by
                  simp only [beq_eq_false_iff_ne, ne_eq]
                  exact fun hx => hc hx.symm
                rw [if_neg hc, hbeq]
                simp
            · intro pr
              rw [ih4 pr]
              show pr ∈ nm ++ [(pd.country, s)] ∨
                (pr.2 ∈ rest ∧ _ ∧ ¬ pr ∈ st.seen) ↔ _
              rw [List.mem_append, List.mem_singleton]
              constructor
              · rintro ((h1 | h1) | ⟨h1, h2, h3⟩)
                · exact Or.inl h1
                · subst h1
                  exact Or.inr ⟨List.mem_cons_self _ _, by rw [hmaps]; simp,
                    hseenP⟩
                · exact Or.inr ⟨List.mem_cons_of_mem _ h1, h2, h3⟩
              · rintro (h1 | ⟨h1, h2, h3⟩)
                · exact Or.inl (Or.inl h1)
                · rcases List.mem_cons.mp h1 with heq | h1r
                  · obtain ⟨c0, s0⟩ := pr
                    simp only at heq
                    subst heq
                    rw [hmaps] at h2
                    have hcc : pd.country = c0 := by simpa using h2
                    subst hcc
                    exact Or.inl (Or.inr rfl)
                  · exact Or.inr ⟨h1r, h2, h3⟩

/-- One full category pass (`processType`): mention counts grow by the
batch rule with the seen set of the *start* of the pass, the maximum
populations absorb the bucket, and the seen set afterwards contains
exactly the old pairs plus every attributable `(country, string)` of the
bucket. -/
theorem processType_spec (cat : CatMap) (st : TabState)
    (bucket : List String) (st1 : TabState)
    (h : processType cat st bucket = Except.ok st1) :
    (∀ c, getD st1.mentions c 0 = getD st.mentions c 0 +
      (bucket.filter (fun s => mapsToB cat s c &&
        !(st.seen.contains (c, s)))).length) ∧
    (∀ c, getD st1.maxPop c 0 =
      max (getD st.maxPop c 0) (popsOf cat bucket c)) ∧
    (∀ pr : String × String, pr ∈ st1.seen ↔ pr ∈ st.seen ∨
      (pr.2 ∈ bucket ∧ mapsToB cat pr.2 pr.1 = true)) := by
  unfold processType at h
  obtain ⟨r, hr, hpure⟩ := bind_ok h
  have hst1 : st1 = ⟨r.1.maxPop, r.1.mentions, r.1.seen ++ r.2⟩ :=
    (Except.ok.inj hpure).symm
  obtain ⟨h1, h2, h3, h4⟩ := processBucket_spec cat bucket st [] r hr
  subst hst1
  refine ⟨fun c => h2 c, fun c => h3 c, ?_⟩
  intro pr
  show pr ∈ r.1.seen ++ r.2 ↔ _
  rw [List.mem_append, h1, h4 pr]
  constructor
  · rintro (h5 | (h5 | ⟨h5, h6, _⟩))
    · exact Or.inl h5
    · simp at h5
    · exact Or.inr ⟨h5, h6⟩
  · rintro (h5 | ⟨h5, h6⟩)
    · exact Or.inl h5
    · by_cases h7 : pr ∈ st.seen
      · exact Or.inl h7
      · exact Or.inr (Or.inr ⟨h5, h6, h7⟩)

/-- The main tabulation invariant: relative to a seen set agreeing (for
country `c`) with the string list `seenC`, the final mention count is the
starting count plus the per-category batch-deduplicated
`mentionsSpec`, and the final maximum population is the running maximum
over all processed buckets. -/
theorem tabulate_go_spec (idx : Index) (parsed : Buckets) (c : String) :
    ∀ (order : List MatchType) (st0 stF : TabState) (seenC : List String),
      (∀ s, (c, s) ∈ st0.seen ↔ s ∈ seenC) →
      order.foldlM (fun st t => processType (idx.cat t) st (parsed.get t))
        st0 = Except.ok stF →
      getD stF.mentions c 0 =
        getD st0.mentions c 0 + mentionsSpec idx parsed c order seenC ∧
      getD stF.maxPop c 0 =
        max (getD st0.maxPop c 0) (maxPopSpec idx parsed order c) := by
  intro order
  induction order with
  | nil =>
      intro st0 stF seenC _ h
      have heq : st0 = stF := Except.ok.inj h
      subst heq
      constructor
      · show _ = getD st0.mentions c 0 + mentionsSpec idx parsed c [] seenC
        simp [mentionsSpec]
      · show _ = max (getD st0.maxPop c 0) (maxPopSpec idx parsed [] c)
        simp [maxPopSpec]
  | cons t rest ih =>
      intro st0 stF seenC hseen h
      rw [List.foldlM_cons] at h
      obtain ⟨st1, h1, h2⟩ := bind_ok h
      obtain ⟨hm, hp, hs⟩ := processType_spec _ _ _ _ h1
      have hinv : ∀ s, (c, s) ∈ st1.seen ↔
          s ∈ seenC ++ (parsed.get t).filter
            (fun s => mapsToB (idx.cat t) s c) := by
        intro s
        rw [hs (c, s), List.mem_append, List.mem_filter]
        constructor
        · rintro (h3 | ⟨h3, h4⟩)
          · exact Or.inl ((hseen s).mp h3)
          · exact Or.inr ⟨h3, h4⟩
        · rintro (h3 | ⟨h3, h4⟩)
          · exact Or.inl ((hseen s).mpr h3)
          · exact Or.inr ⟨h3, h4⟩
      obtain ⟨ihm, ihp⟩ := ih st1 stF _ hinv h2
      have hfeq : (parsed.get t).filter
          (fun s => mapsToB (idx.cat t) s c &&
            !(st0.seen.contains (c, s))) =
        (parsed.get t).filter (fun s => mapsToB (idx.cat t) s c &&
          !(seenC.contains s)) := by
        apply List.filter_congr
        intro s _
        have hce : st0.seen.contains (c, s) = seenC.contains s := by
          cases hc2 : seenC.contains s
          · exact (contains_eq_false_iff _ _).mpr
              (fun hx => ((contains_eq_false_iff _ _).mp hc2)
                ((hseen s).mp hx))
          · exact List.elem_iff.mpr ((hseen s).mpr (List.elem_iff.mp hc2))
        rw [hce]
      constructor
      · rw [ihm, hm c, hfeq]
        show _ = getD st0.mentions c 0 +
          (((parsed.get t).filter (fun s => mapsToB (idx.cat t) s c &&
            !(seenC.contains s))).length +
            mentionsSpec idx parsed c rest
              (seenC ++ (parsed.get t).filter
                (fun s => mapsToB (idx.cat t) s c)))
        omega
      · rw [ihp, hp c]
        show _ = max (getD st0.maxPop c 0)
          (max (popsOf (idx.cat t) (parsed.get t) c)
            (maxPopSpec idx parsed rest c))
        omega

/-- The tabulated mention count of every country equals the batch
specification `mentionsSpec`. -/
theorem tabulate_mentions_spec (idx : Index) (parsed : Buckets)
    (order : List MatchType) (st : TabState) (c : String)
    (h : tabulate idx parsed order = Except.ok st) :
    getD st.mentions c 0 = mentionsSpec idx parsed c order [] := by
  unfold tabulate at h
  have h2 := (tabulate_go_spec idx parsed c order ⟨[], [], []⟩ st []
    (fun s => by simp) h).1
  simpa [getD] using h2

/-- C1: in the mention tabulation, the de-duplication set is updated only
after an entire category's bucket has been processed, never
string-by-string.  Formally, the tabulated count of every country `c`
equals `mentionsSpec`, the per-category batch rule: in each category pass
every occurrence of an attributable string that was not seen *before the
pass* counts (so repeated occurrences of the same string within one
bucket each count separately), and the per-country seen strings grow only
after the pass (so a string occurring in several categories for the same
country is counted only in the first category processed). -/
theorem C1_batch_dedup (idx : Index) (parsed : Buckets)
    (order : List MatchType) (st : TabState) (c : String)
    (h : tabulate idx parsed order = Except.ok st) :
    getD st.mentions c 0 = mentionsSpec idx parsed c order [] :=
  tabulate_mentions_spec idx parsed order st c h

/-- Witness for C1 at a concrete input: tabulating the aggressive parse of
`"China China China"` (whose countries and cities buckets each hold three
occurrences of `China`) counts `CN` three times — each in-bucket repeat
counts, and the second category containing the same string adds
nothing — in agreement with the batch specification. -/
theorem C1_witness :
    getD (TabState.mk [("CN", 1330000000)] [("CN", 3)]
      [("CN", "China"), ("CN", "China"), ("CN", "China")]).mentions "CN" 0 =
    mentionsSpec sampleIndex
      (parse_aggressive sampleIndex.meta "China China China") "CN"
      canonicalOrder [] :=
  C1_batch_dedup sampleIndex
    (parse_aggressive sampleIndex.meta "China China China") canonicalOrder
    (TabState.mk [("CN", 1330000000)] [("CN", 3)]
      [("CN", "China"), ("CN", "China"), ("CN", "China")]) "CN" (by rfl)

/-! ## Bucket occurrence counts (claim C5 machinery) -/

theorem count_get_app (b : Buckets) (u t : MatchType) (x s : String) :
    ((b.app u x).get t).count s =
      (b.get t).count s + (if t = u ∧ x = s then 1 else 0) := by
  rw [get_app]
  by_cases h : t = u
  · rw [if_pos h, List.count_append]
    by_cases hx : x = s
    · subst hx
      simp [h, List.count_singleton]
    · rw [List.count_singleton]
      rw [show (x == s) = false by simpa using hx]
      simp [hx]
  · rw [if_neg h]
    simp [h]

theorem count_foldTypes (x s : String) (t : MatchType) :
    ∀ (types : List MatchType) (bks : Buckets),
      ((types.foldl (fun b u => b.app u x) bks).get t).count s =
        (bks.get t).count s + (if x = s then types.count t else 0) := by
  intro types
  induction types with
  | nil => intro bks; simp
  | cons u us ih =>
      intro bks
      show ((us.foldl (fun b u => b.app u x) (bks.app u x)).get t).count s = _
      rw [ih, count_get_app, List.count_cons]
      by_cases hx : x = s
      · by_cases htu : t = u
        · subst htu
          simp [hx]
          omega
        · have : (u == t) = false := by
            simp only [beq_eq_false_iff_ne, ne_eq]
            exact fun hh => htu hh.symm
          simp [hx, htu, this]
      · simp [hx]

theorem count_accumulate (t : MatchType) (s : String) :
    ∀ (cands : List (String × List MatchType)),
      ((accumulate cands).get t).count s =
        (cands.map (fun p => if p.1 = s then p.2.count t else 0)).sum := by
  suffices hgen : ∀ (cs : List (String × List MatchType)) (bks : Buckets),
      ((cs.foldl (fun bks p => p.2.foldl (fun b u => b.app u p.1) bks)
        bks).get t).count s =
        (bks.get t).count s +
          (cs.map (fun p => if p.1 = s then p.2.count t else 0)).sum by
    intro cands
    rw [show accumulate cands =
      cands.foldl (fun bks p => p.2.foldl (fun b u => b.app u p.1) bks)
        Buckets.empty from rfl]
    rw [hgen]
    have h0 : ((Buckets.empty).get t).count s = 0 := by cases t <;> rfl
    omega
  intro cs
  induction cs with
  | nil => intro bks; simp
  | cons p ps ih =>
      intro bks
      show ((ps.foldl _ (p.2.foldl (fun b u => b.app u p.1) bks)).get t).count
        s = _
      rw [ih, count_foldTypes]
      simp only [List.map_cons, List.sum_cons]
      by_cases hp : p.1 = s
      · simp only [if_pos hp]
        omega
      · simp only [if_neg hp]
        omega

/-- Both extractors attach to every candidate occurrence the tag list
determined by the candidate string alone; under that discipline a
bucket's occurrence count of `s` is (number of accepted occurrences of
`s`) × (multiplicity of the bucket's tag in `s`'s tag list). -/
theorem sum_types_count (g : String → List MatchType) (t : MatchType)
    (s : String) :
    ∀ (L : List (String × List MatchType)),
      (∀ p ∈ L, p.2 = g p.1) →
      (L.map (fun p => if p.1 = s then p.2.count t else 0)).sum =
        (L.countP (fun p => p.1 == s)) * (g s).count t := by
  intro L
  induction L with
  | nil => intro _; simp
  | cons p ps ih =>
      intro hL
      simp only [List.map_cons, List.sum_cons, List.countP_cons]
      rw [ih (fun q hq => hL q (List.mem_cons_of_mem _ hq))]
      by_cases hp : p.1 = s
      · rw [if_pos hp, hL p (List.mem_cons_self _ _), hp]
        rw [show (s == s) = true by simp]
        simp only [if_pos]
        ring
      · rw [if_neg hp]
        rw [show (p.1 == s) = false by simpa using hp]
        simp

theorem count_bucket_agg (meta : List (String × List MatchType))
    (text : String) (t : MatchType) (s : String) :
    ((parse_aggressive meta text).get t).count s =
      ((aggressiveScan meta (pySplit (normalize text))).countP
        (fun m => m.cand == s)) * ((metaTags meta (pyLower s)).count t) := by
  unfold parse_aggressive
  rw [count_accumulate]
  rw [sum_types_count (fun x => metaTags meta (pyLower x)) t s _ ?_]
  · rw [List.countP_map]
    rfl
  · intro p hp
    obtain ⟨m, hm, hmp⟩ := List.mem_map.mp hp
    have hspec := ((aggGo_spec meta (pySplit (normalize text))
      (pySplit (normalize text)).length (pySplit (normalize text)).length
      0 0).1 m hm).2.2.2.2.2.1
    rw [← hmp]
    exact hspec

theorem count_bucket_parse (meta : List (String × List MatchType))
    (text : String) (t : MatchType) (s : String)
    (ht : t ≠ MatchType.nationalities) :
    ((parse meta text).get t).count s =
      ((strictCands text).countP (fun pc => pc.2 == s)) *
        ((metaTags meta (pyLower (normalize s))).count t) := by
  unfold parse
  rw [get_clear_nats, if_neg ht, count_accumulate]
  rw [sum_types_count (fun x => metaTags meta (pyLower (normalize x))) t s _
    ?_]
  · rw [List.countP_map]
    rfl
  · intro p hp
    obtain ⟨pc, _, hmp⟩ := List.mem_map.mp hp
    rw [← hmp]

/-! ## Consistency of the extractors' buckets -/

theorem consistent_parse_aggressive (meta : List (String × List MatchType))
    (text : String) (hnd : MetaNodup meta) :
    Consistent (parse_aggressive meta text) := by
  intro s t1 t2 h1 h2
  rw [← List.count_pos_iff] at h1 h2
  rw [count_bucket_agg] at h1 h2 ⊢
  rw [count_bucket_agg]
  have hle1 := List.nodup_iff_count_le_one.mp (hnd (pyLower s)) t1
  have hle2 := List.nodup_iff_count_le_one.mp (hnd (pyLower s)) t2
  have hk1 : (metaTags meta (pyLower s)).count t1 = 1 := by
    rcases Nat.eq_zero_or_pos ((metaTags meta (pyLower s)).count t1) with h | h
    · rw [h] at h1
      simp at h1
    · omega
  have hk2 : (metaTags meta (pyLower s)).count t2 = 1 := by
    rcases Nat.eq_zero_or_pos ((metaTags meta (pyLower s)).count t2) with h | h
    · rw [h] at h2
      simp at h2
    · omega
  rw [hk1, hk2]

theorem consistent_parse (meta : List (String × List MatchType))
    (text : String) (hnd : MetaNodup meta) :
    Consistent (parse meta text) := by
  intro s t1 t2 h1 h2
  by_cases hn1 : t1 = MatchType.nationalities
  · subst hn1
    rw [show (parse meta text).get MatchType.nationalities = [] by
      unfold parse
      rw [get_clear_nats, if_pos rfl]] at h1
    simp at h1
  by_cases hn2 : t2 = MatchType.nationalities
  · subst hn2
    rw [show (parse meta text).get MatchType.nationalities = [] by
      unfold parse
      rw [get_clear_nats, if_pos rfl]] at h2
    simp at h2
  rw [← List.count_pos_iff] at h1 h2
  rw [count_bucket_parse meta text t1 s hn1] at h1 ⊢
  rw [count_bucket_parse meta text t2 s hn2] at h2 ⊢
  have hle1 := List.nodup_iff_count_le_one.mp
    (hnd (pyLower (normalize s))) t1
  have hle2 := List.nodup_iff_count_le_one.mp
    (hnd (pyLower (normalize s))) t2
  have hk1 : (metaTags meta (pyLower (normalize s))).count t1 = 1 := by
    rcases Nat.eq_zero_or_pos
      ((metaTags meta (pyLower (normalize s))).count t1) with h | h
    · rw [h] at h1
      simp at h1
    · omega
  have hk2 : (metaTags meta (pyLower (normalize s))).count t2 = 1 := by
    rcases Nat.eq_zero_or_pos
      ((metaTags meta (pyLower (normalize s))).count t2) with h | h
    · rw [h] at h2
      simp at h2
    · omega
  rw [hk1, hk2]

theorem consistent_parseFor (idx : Index) (aggressive : Bool)
    (text : String) (hnd : MetaNodup idx.meta) :
    Consistent (parseFor idx aggressive text) := by
  unfold parseFor
  cases aggressive
  · rw [if_neg (by simp)]
    exact consistent_parse idx.meta text hnd
  · rw [if_pos rfl]
    exact consistent_parse_aggressive idx.meta text hnd

/-! ## Order invariance of the batch-dedup count (claim C5 machinery) -/

theorem contains_congr {α : Type} [BEq α] [LawfulBEq α] {l1 l2 : List α}
    (h : ∀ x, x ∈ l1 ↔ x ∈ l2) (a : α) :
    l1.contains a = l2.contains a := by
  cases hc : l2.contains a
  · exact (contains_eq_false_iff _ _).mpr
      (fun hm => ((contains_eq_false_iff _ _).mp hc) ((h a).mp hm))
  · exact List.elem_iff.mpr ((h a).mpr (List.elem_iff.mp hc))

theorem contains_filter {α : Type} [BEq α] [LawfulBEq α]
    (l : List α) (p : α → Bool) (a : α) :
    (l.filter p).contains a = (l.contains a && p a) := by
  cases h : l.contains a && p a
  · refine (contains_eq_false_iff _ _).mpr (fun hmem => ?_)
    obtain ⟨h1, h2⟩ := List.mem_filter.mp hmem
    have hc : l.contains a = true := List.elem_iff.mpr h1
    rw [hc, h2] at h
    cases h
  · have hand : l.contains a = true ∧ p a = true := by simpa using h
    have hm : a ∈ l.filter p :=
      List.mem_filter.mpr ⟨List.elem_iff.mp hand.1, hand.2⟩
    exact List.elem_iff.mpr hm

theorem length_filter_split {α : Type} (l : List α) (p q : α → Bool) :
    (l.filter (fun s => p s && !(q s))).length +
      (l.filter (fun s => p s && q s)).length = (l.filter p).length := by
  induction l with
  | nil => rfl
  | cons x xs ih =>
      simp only [List.filter_cons]
      cases hp : p x <;> cases hq : q x <;> simp [hp, hq] <;> omega

theorem count_bridge {α : Type} [BEq α] [LawfulBEq α] [DecidableEq α]
    (l : List α) (a : α) :
    l.count a = List.countP (fun x => decide (x = a)) l := by
  show List.countP (fun x => x == a) l = _
  apply List.countP_congr
  intro x _
  simp

theorem count_deq_bridge {α : Type} [DecidableEq α] (l : List α) (a : α) :
    l.count a = List.countP (fun x => decide (x = a)) l := by
  show List.countP (fun x => x == a) l = _
  apply List.countP_congr
  intro x _
  simp

/-- Two lists that agree on the multiplicities of their common elements
have equally long sublists of elements satisfying a predicate `q` that
forces membership in both. -/
theorem length_filter_eq_of_count {α : Type} [BEq α] [LawfulBEq α]
    [DecidableEq α] (q : α → Bool) (l1 l2 : List α)
    (hmem : ∀ s, q s = true → s ∈ l1 ∧ s ∈ l2)
    (hcount : ∀ s, s ∈ l1 → s ∈ l2 → l1.count s = l2.count s) :
    (l1.filter q).length = (l2.filter q).length := by
  have hf : ∀ (l : List α),
      (Multiset.filter (fun s => q s = true) (↑l : Multiset α)) =
        ((l.filter q : List α) : Multiset α) := by
    intro l
    rw [Multiset.filter_coe]
    exact congrArg (fun x => ((x : List α) : Multiset α))
      (List.filter_congr (fun a _ => by simp))
  have hms : ((l1.filter q : List α) : Multiset α) =
      ((l2.filter q : List α) : Multiset α) := by
    rw [← hf, ← hf]
    rw [Multiset.ext]
    intro a
    rw [Multiset.count_filter, Multiset.count_filter]
    by_cases hq : q a = true
    · rw [if_pos hq, if_pos hq, Multiset.coe_count, Multiset.coe_count]
      rw [count_deq_bridge l1 a, count_deq_bridge l2 a]
      have hc := hcount a (hmem a hq).1 (hmem a hq).2
      rw [count_bridge l1 a, count_bridge l2 a] at hc
      exact hc
    · rw [if_neg hq, if_neg hq]
  have hcard := congrArg Multiset.card hms
  rwa [Multiset.coe_card, Multiset.coe_card] at hcard

/-- The arithmetic core of the category-swap argument: processing bucket
`b1` then `b2` (each pass filtering out strings already claimed) counts as
many occurrences as processing `b2` then `b1`, provided every string
present in both buckets occurs equally often in the two. -/
theorem swap_core {α : Type} [BEq α] [LawfulBEq α] [DecidableEq α]
    (b1 b2 : List α) (p1 p2 : α → Bool) (seen : List α)
    (hcount : ∀ s, s ∈ b1 → s ∈ b2 → b1.count s = b2.count s) :
    (b1.filter (fun s => p1 s && !(seen.contains s))).length +
      (b2.filter (fun s => p2 s &&
        !((seen ++ b1.filter p1).contains s))).length =
    (b2.filter (fun s => p2 s && !(seen.contains s))).length +
      (b1.filter (fun s => p1 s &&
        !((seen ++ b2.filter p2).contains s))).length := by
  have hA2 : b2.filter (fun s => p2 s &&
      !((seen ++ b1.filter p1).contains s)) =
      b2.filter (fun s =>
        (p2 s && !(seen.contains s)) && !((b1.filter p1).contains s)) := by
    apply List.filter_congr
    intro s _
    have hap : (seen ++ b1.filter p1).contains s =
        (seen.contains s || (b1.filter p1).contains s) := by simp
    rw [hap]
    cases p2 s <;> cases seen.contains s <;>
      cases (b1.filter p1).contains s <;> simp
  have hB1 : b1.filter (fun s => p1 s &&
      !((seen ++ b2.filter p2).contains s)) =
      b1.filter (fun s =>
        (p1 s && !(seen.contains s)) && !((b2.filter p2).contains s)) := by
    apply List.filter_congr
    intro s _
    have hap : (seen ++ b2.filter p2).contains s =
        (seen.contains s || (b2.filter p2).contains s) := by simp
    rw [hap]
    cases p1 s <;> cases seen.contains s <;>
      cases (b2.filter p2).contains s <;> simp
  have hsplit2 : (b2.filter (fun s =>
      (p2 s && !(seen.contains s)) && !((b1.filter p1).contains s))).length +
      (b2.filter (fun s =>
        (p2 s && !(seen.contains s)) && ((b1.filter p1).contains s))).length =
      (b2.filter (fun s => p2 s && !(seen.contains s))).length :=
    length_filter_split b2 _ _
  have hsplit1 : (b1.filter (fun s =>
      (p1 s && !(seen.contains s)) && !((b2.filter p2).contains s))).length +
      (b1.filter (fun s =>
        (p1 s && !(seen.contains s)) && ((b2.filter p2).contains s))).length =
      (b1.filter (fun s => p1 s && !(seen.contains s))).length :=
    length_filter_split b1 _ _
  have hX : b2.filter (fun s =>
      (p2 s && !(seen.contains s)) && ((b1.filter p1).contains s)) =
      b2.filter (fun s => (p1 s && (p2 s && !(seen.contains s))) &&
        (b1.contains s && b2.contains s)) := by
    apply List.filter_congr
    intro s hs
    have hc2 : b2.contains s = true := List.elem_iff.mpr hs
    rw [contains_filter, hc2]
    cases p1 s <;> cases p2 s <;> cases seen.contains s <;>
      cases b1.contains s <;> simp
  have hY : b1.filter (fun s =>
      (p1 s && !(seen.contains s)) && ((b2.filter p2).contains s)) =
      b1.filter (fun s => (p1 s && (p2 s && !(seen.contains s))) &&
        (b1.contains s && b2.contains s)) := by
    apply List.filter_congr
    intro s hs
    have hc1 : b1.contains s = true := List.elem_iff.mpr hs
    rw [contains_filter, hc1]
    cases p1 s <;> cases p2 s <;> cases seen.contains s <;>
      cases b2.contains s <;> simp
  have hXY : (b2.filter (fun s => (p1 s && (p2 s && !(seen.contains s))) &&
      (b1.contains s && b2.contains s))).length =
      (b1.filter (fun s => (p1 s && (p2 s && !(seen.contains s))) &&
        (b1.contains s && b2.contains s))).length := by
    apply length_filter_eq_of_count
    · intro s hq
      have hand : ((p1 s && (p2 s && !(seen.contains s))) = true) ∧
          b1.contains s = true ∧ b2.contains s = true := by
        simpa using hq
      exact ⟨List.elem_iff.mp hand.2.2, List.elem_iff.mp hand.2.1⟩
    · intro s h2 h1
      exact (hcount s h1 h2).symm
  rw [hA2, hB1]
  rw [hX] at hsplit2
  rw [hY] at hsplit1
  omega

theorem mentionsSpec_congr (idx : Index) (parsed : Buckets) (c : String) :
    ∀ (order : List MatchType) (sA sB : List String),
      (∀ x, x ∈ sA ↔ x ∈ sB) →
      mentionsSpec idx parsed c order sA =
        mentionsSpec idx parsed c order sB := by
  intro order
  induction order with
  | nil => intro sA sB _; rfl
  | cons t rest ih =>
      intro sA sB hiff
      show ((parsed.get t).filter
          (fun s => mapsToB (idx.cat t) s c && !(sA.contains s))).length +
        mentionsSpec idx parsed c rest
          (sA ++ (parsed.get t).filter
            (fun s => mapsToB (idx.cat t) s c)) =
        ((parsed.get t).filter
          (fun s => mapsToB (idx.cat t) s c && !(sB.contains s))).length +
        mentionsSpec idx parsed c rest
          (sB ++ (parsed.get t).filter
            (fun s => mapsToB (idx.cat t) s c))
      have hfe : (parsed.get t).filter
          (fun s => mapsToB (idx.cat t) s c && !(sA.contains s)) =
        (parsed.get t).filter
          (fun s => mapsToB (idx.cat t) s c && !(sB.contains s)) := by
        apply List.filter_congr
        intro s _
        rw [contains_congr hiff s]
      rw [hfe, ih
        (sA ++ (parsed.get t).filter (fun s => mapsToB (idx.cat t) s c))
        (sB ++ (parsed.get t).filter (fun s => mapsToB (idx.cat t) s c))
        (fun x => by rw [List.mem_append, List.mem_append, hiff x])]

/-- Adjacent transposition of two category passes does not change the
batch-deduplicated mention count, as long as the buckets are `Consistent`
(every string in two buckets occurs equally often in both, which both
extractors guarantee). -/
theorem mentionsSpec_swap (idx : Index) (parsed : Buckets) (c : String)
    (hcons : Consistent parsed) (t1 t2 : MatchType) (rest : List MatchType)
    (seenC : List String) :
    mentionsSpec idx parsed c (t1 :: t2 :: rest) seenC =
      mentionsSpec idx parsed c (t2 :: t1 :: rest) seenC := by
  show ((parsed.get t1).filter
      (fun s => mapsToB (idx.cat t1) s c && !(seenC.contains s))).length +
    (((parsed.get t2).filter
      (fun s => mapsToB (idx.cat t2) s c &&
        !((seenC ++ (parsed.get t1).filter
          (fun s => mapsToB (idx.cat t1) s c)).contains s))).length +
      mentionsSpec idx parsed c rest
        ((seenC ++ (parsed.get t1).filter
          (fun s => mapsToB (idx.cat t1) s c)) ++
          (parsed.get t2).filter (fun s => mapsToB (idx.cat t2) s c))) =
    ((parsed.get t2).filter
      (fun s => mapsToB (idx.cat t2) s c && !(seenC.contains s))).length +
    (((parsed.get t1).filter
      (fun s => mapsToB (idx.cat t1) s c &&
        !((seenC ++ (parsed.get t2).filter
          (fun s => mapsToB (idx.cat t2) s c)).contains s))).length +
      mentionsSpec idx parsed c rest
        ((seenC ++ (parsed.get t2).filter
          (fun s => mapsToB (idx.cat t2) s c)) ++
          (parsed.get t1).filter (fun s => mapsToB (idx.cat t1) s c)))
  have hcore : ((parsed.get t1).filter
      (fun s => mapsToB (idx.cat t1) s c && !(seenC.contains s))).length +
    ((parsed.get t2).filter
      (fun s => mapsToB (idx.cat t2) s c &&
        !((seenC ++ (parsed.get t1).filter
          (fun s => mapsToB (idx.cat t1) s c)).contains s))).length =
    ((parsed.get t2).filter
      (fun s => mapsToB (idx.cat t2) s c && !(seenC.contains s))).length +
    ((parsed.get t1).filter
      (fun s => mapsToB (idx.cat t1) s c &&
        !((seenC ++ (parsed.get t2).filter
          (fun s => mapsToB (idx.cat t2) s c)).contains s))).length :=
    swap_core (parsed.get t1) (parsed.get t2) _ _ seenC
      (fun s h1 h2 => hcons s t1 t2 h1 h2)
  have htail : mentionsSpec idx parsed c rest
      ((seenC ++ (parsed.get t1).filter
        (fun s => mapsToB (idx.cat t1) s c)) ++
        (parsed.get t2).filter (fun s => mapsToB (idx.cat t2) s c)) =
    mentionsSpec idx parsed c rest
      ((seenC ++ (parsed.get t2).filter
        (fun s => mapsToB (idx.cat t2) s c)) ++
        (parsed.get t1).filter (fun s => mapsToB (idx.cat t1) s c)) := by
    apply mentionsSpec_congr
    intro x
    simp only [List.mem_append]
    tauto
  omega

theorem mentionsSpec_perm (idx : Index) (parsed : Buckets) (c : String)
    (hcons : Consistent parsed) :
    ∀ {o1 o2 : List MatchType}, o1.Perm o2 →
      ∀ seenC, mentionsSpec idx parsed c o1 seenC =
        mentionsSpec idx parsed c o2 seenC := by
  intro o1 o2 hperm
  induction hperm with
  | nil => intro _; rfl
  | cons t _ ih =>
      intro seenC
      simp only [mentionsSpec]
      rw [ih]
  | swap t1 t2 l =>
      intro seenC
      exact mentionsSpec_swap idx parsed c hcons t2 t1 l seenC
  | trans _ _ ih1 ih2 =>
      intro seenC
      rw [ih1, ih2]

/-- The Python set iteration over `MATCH_TYPES` stores each tag once, so
tag lists looked up in a concrete meta index are duplicate-free whenever
all its entries are. -/
theorem lookup_mem {V : Type} :
    ∀ (l : List (String × V)) (k : String) (v : V),
      l.lookup k = some v → (k, v) ∈ l := by
  intro l
  induction l with
  | nil => intro k v h; cases h
  | cons p t ih =>
      intro k v h
      obtain ⟨a, b⟩ := p
      rw [lookupP_cons] at h
      by_cases hk : k = a
      · rw [if_pos hk] at h
        have hv : b = v := Option.some.inj h
        subst hv
        subst hk
        exact List.mem_cons_self _ _
      · rw [if_neg hk] at h
        exact List.mem_cons_of_mem _ (ih k v h)

theorem metaNodup_of_forall (meta : List (String × List MatchType))
    (h : ∀ p ∈ meta, p.2.Nodup) : MetaNodup meta := by
  intro name
  unfold metaTags
  cases hlk : meta.lookup name with
  | none => simp
  | some l =>
      have hm : (name, l) ∈ meta := lookup_mem meta name l hlk
      exact h (name, l) hm

/-! ## Sortedness of `country_mentions` (claim C4) -/

theorem keyGt_iff (a b : Nat × Nat) :
    keyGt a b = true ↔ (b.1 < a.1 ∨ (a.1 = b.1 ∧ b.2 < a.2)) := by
  unfold keyGt
  simp

theorem keyGt_false_iff (a b : Nat × Nat) :
    keyGt a b = false ↔ (a.1 < b.1 ∨ (a.1 = b.1 ∧ a.2 ≤ b.2)) := by
  rw [← Bool.not_eq_true, keyGt_iff]
  omega

theorem keyGt_asymm {a b : Nat × Nat} (h : keyGt a b = true) :
    keyGt b a = false := by
  rw [keyGt_iff] at h
  rw [keyGt_false_iff]
  omega

theorem keyGt_false_trans {a b c : Nat × Nat} (h1 : keyGt b a = false)
    (h2 : keyGt c b = false) : keyGt c a = false := by
  rw [keyGt_false_iff] at h1 h2 ⊢
  omega

theorem mem_insertDesc {α : Type} (key : α → Nat × Nat) (x y : α) :
    ∀ (l : List α), y ∈ insertDesc key x l ↔ y = x ∨ y ∈ l := by
  intro l
  induction l with
  | nil => simp [insertDesc]
  | cons z zs ih =>
      simp only [insertDesc]
      by_cases h : keyGt (key z) (key x) = true
      · rw [if_pos h]
        rw [List.mem_cons, ih, List.mem_cons]
        tauto
      · rw [if_neg h]
        rw [List.mem_cons, List.mem_cons]

theorem pairwise_insertDesc {α : Type} (key : α → Nat × Nat) (x : α) :
    ∀ (l : List α),
      List.Pairwise (fun a b => keyGt (key b) (key a) = false) l →
      List.Pairwise (fun a b => keyGt (key b) (key a) = false)
        (insertDesc key x l) := by
  intro l
  induction l with
  | nil => intro _; simp [insertDesc]
  | cons z zs ih =>
      intro hpw
      obtain ⟨hz, hzs⟩ := List.pairwise_cons.mp hpw
      simp only [insertDesc]
      by_cases h : keyGt (key z) (key x) = true
      · rw [if_pos h]
        refine List.pairwise_cons.mpr ⟨?_, ih hzs⟩
        intro y hy
        rcases (mem_insertDesc key x y zs).mp hy with rfl | hy2
        · exact keyGt_asymm h
        · exact hz y hy2
      · rw [if_neg h]
        refine List.pairwise_cons.mpr ⟨?_, hpw⟩
        intro y hy
        rcases List.mem_cons.mp hy with rfl | hy2
        · exact Bool.eq_false_iff.mpr h
        · exact keyGt_false_trans (Bool.eq_false_iff.mpr h) (hz y hy2)

theorem pairwise_sortDesc {α : Type} (key : α → Nat × Nat) (l : List α) :
    List.Pairwise (fun a b => keyGt (key b) (key a) = false)
      (sortDesc key l) := by
  unfold sortDesc
  induction l with
  | nil => simp
  | cons x xs ih =>
      show List.Pairwise _ (insertDesc key x (List.foldr (insertDesc key) [] xs))
      exact pairwise_insertDesc key x _ ih

/-- Decomposition of a successful `GeoText.__init__` run: the tabulation
succeeded, and `country_mentions` / `max_population` are the stable
descending sort of the tabulated mentions and its tie-break map. -/
theorem geoTextInit_parts {idx : Index} {text : String}
    {country : Option String} {aggressive : Bool} {order : List MatchType}
    {r : GeoTextResult}
    (h : geoTextInit idx text country aggressive order = Except.ok r) :
    ∃ st : TabState,
      tabulate idx (parseFor idx aggressive text) order = Except.ok st ∧
      r.country_mentions =
        sortDesc (fun p => (p.2, getD st.maxPop p.1 0)) st.mentions ∧
      r.max_population = st.maxPop := by
  unfold geoTextInit at h
  cases country with
  | none =>
      obtain ⟨y, _, h2⟩ := bind_ok h
      obtain ⟨st, ht, h3⟩ := bind_ok h2
      refine ⟨st, ht, ?_, ?_⟩
      · rw [← Except.ok.inj h3]
      · rw [← Except.ok.inj h3]
  | some c =>
      obtain ⟨cities1, _, h2⟩ := bind_ok h
      obtain ⟨admin1, _, h3⟩ := bind_ok h2
      obtain ⟨nats1, _, h4⟩ := bind_ok h3
      obtain ⟨y, _, h5⟩ := bind_ok h4
      obtain ⟨st, ht, h6⟩ := bind_ok h5
      refine ⟨st, ht, ?_, ?_⟩
      · rw [← Except.ok.inj h6]
      · rw [← Except.ok.inj h6]

/-- C4: for every input, mode and filter, the resulting
`country_mentions` is ordered by descending mention count, with ties
broken by descending maximum observed population: no entry's sort key
`(count, max_population[country])` is strictly exceeded by a later
entry's.  Moreover, the tie-break map `max_population` is tracked across
all four category buckets: for every country it equals the maximum
population over all attributable occurrences in all processed buckets. -/
theorem C4_mentions_sorted (idx : Index) (text : String)
    (country : Option String) (aggressive : Bool) (order : List MatchType)
    (r : GeoTextResult)
    (h : geoTextInit idx text country aggressive order = Except.ok r) :
    List.Pairwise (fun a b =>
      keyGt (b.2, getD r.max_population b.1 0)
        (a.2, getD r.max_population a.1 0) = false) r.country_mentions ∧
    (∀ c, getD r.max_population c 0 =
      maxPopSpec idx (parseFor idx aggressive text) order c) := by
  obtain ⟨st, ht, hcm, hmp⟩ := geoTextInit_parts h
  constructor
  · rw [hcm, hmp]
    exact pairwise_sortDesc _ _
  · intro c
    rw [hmp]
    unfold tabulate at ht
    have h2 := (tabulate_go_spec idx (parseFor idx aggressive text) c order
      ⟨[], [], []⟩ st [] (fun s => by simp) ht).2
    simpa [getD] using h2

/-- Witness for C4 at a concrete input: the parse of
`"Lima, Dublin and Moscow (Russia)."` yields mentions `RU 2, PE 1, IE 1`,
sorted descending, with `RU`'s tie-break population being the maximum
over its country and city records. -/
theorem C4_witness :
    List.Pairwise (fun a b =>
      keyGt (b.2, getD (GeoTextResult.mk ["Russia"] []
          ["Lima", "Dublin", "Moscow"] [] [("RU", 2), ("PE", 1), ("IE", 1)]
          [("RU", 140000000), ("PE", 7000000), ("IE", 500000)]).max_population
            b.1 0)
        (a.2, getD (GeoTextResult.mk ["Russia"] []
          ["Lima", "Dublin", "Moscow"] [] [("RU", 2), ("PE", 1), ("IE", 1)]
          [("RU", 140000000), ("PE", 7000000), ("IE", 500000)]).max_population
            a.1 0) = false)
      (GeoTextResult.mk ["Russia"] [] ["Lima", "Dublin", "Moscow"] []
        [("RU", 2), ("PE", 1), ("IE", 1)]
        [("RU", 140000000), ("PE", 7000000), ("IE", 500000)]).country_mentions
    ∧ getD (GeoTextResult.mk ["Russia"] [] ["Lima", "Dublin", "Moscow"] []
        [("RU", 2), ("PE", 1), ("IE", 1)]
        [("RU", 140000000), ("PE", 7000000), ("IE", 500000)]).max_population
        "RU" 0 =
      maxPopSpec sampleIndex
        (parseFor sampleIndex false "Lima, Dublin and Moscow (Russia).")
        canonicalOrder "RU" :=
  ⟨(C4_mentions_sorted sampleIndex "Lima, Dublin and Moscow (Russia)." none
      false canonicalOrder _ (by rfl)).1,
   (C4_mentions_sorted sampleIndex "Lima, Dublin and Moscow (Russia)." none
      false canonicalOrder _ (by rfl)).2 "RU"⟩

/-- C5: for a fixed extractor run, the numeric counts in
`country_mentions` do not depend on the order in which the four category
buckets are tabulated, because both extractors attach to every occurrence
of a candidate string the same set-valued tag list, making every string
occur equally often in any two buckets that contain it; within-category
repetition still counts (each occurrence of a not-yet-seen string adds 1,
per `mentionsSpec`).  The meta index stores Python sets of tags, stated
here as the `MetaNodup` hypothesis. -/
theorem C5_order_invariance (idx : Index) (text : String)
    (aggressive : Bool) (order1 order2 : List MatchType)
    (st1 st2 : TabState) (c : String) (hnd : MetaNodup idx.meta)
    (hperm : order1.Perm order2)
    (h1 : tabulate idx (parseFor idx aggressive text) order1 =
      Except.ok st1)
    (h2 : tabulate idx (parseFor idx aggressive text) order2 =
      Except.ok st2) :
    getD st1.mentions c 0 = getD st2.mentions c 0 := by
  rw [tabulate_mentions_spec idx (parseFor idx aggressive text) order1 st1
    c h1]
  rw [tabulate_mentions_spec idx (parseFor idx aggressive text) order2 st2
    c h2]
  exact mentionsSpec_perm idx (parseFor idx aggressive text) c
    (consistent_parseFor idx aggressive text hnd) hperm []

/-- Witness for C5 at a concrete input: `"China China China"` in
aggressive mode fills both the countries and the cities bucket with three
occurrences of `"China"`; tabulating countries-first and cities-first both
give `CN ↦ 3`. -/
theorem C5_witness :
    tabulate sampleIndex
        (parseFor sampleIndex true "China China China") canonicalOrder =
      Except.ok (TabState.mk [("CN", 1330000000)] [("CN", 3)]
        [("CN", "China"), ("CN", "China"), ("CN", "China")]) ∧
    tabulate sampleIndex
        (parseFor sampleIndex true "China China China")
        [MatchType.cities, MatchType.countries, MatchType.nationalities,
         MatchType.admin_divisions] =
      Except.ok (TabState.mk [("CN", 1330000000)] [("CN", 3)]
        [("CN", "China"), ("CN", "China"), ("CN", "China")]) ∧
    getD (TabState.mk [("CN", 1330000000)] [("CN", 3)]
        [("CN", "China"), ("CN", "China"), ("CN", "China")]).mentions
        "CN" 0 =
      getD (TabState.mk [("CN", 1330000000)] [("CN", 3)]
        [("CN", "China"), ("CN", "China"), ("CN", "China")]).mentions
        "CN" 0 :=
  ⟨rfl, rfl,
   C5_order_invariance sampleIndex "China China China" true canonicalOrder
     [MatchType.cities, MatchType.countries, MatchType.nationalities,
      MatchType.admin_divisions]
     (TabState.mk [("CN", 1330000000)] [("CN", 3)]
       [("CN", "China"), ("CN", "China"), ("CN", "China")])
     (TabState.mk [("CN", 1330000000)] [("CN", 3)]
       [("CN", "China"), ("CN", "China"), ("CN", "China")])
     "CN" (metaNodup_of_forall sampleIndex.meta (by decide)) (by decide)
     rfl rfl⟩

end Geotext
